import Mathlib

/-!
# XChaCha20 (`src/crypto/xchacha20.cpp`)

A shallow embedding of the XChaCha20 stream cipher of innoextract and proofs of
its specification.

Conventions of the embedding:

* a `word` (`boost::uint32_t`) is a `Nat`; every wrapping operation carries its
  explicit `% 2 ^ 32`.  A word array `word x[16]` is the structure `Words` with
  the sixteen fields `w0 .. w15`, so that every access with a constant index is
  total, as it is in the source.  The one access with a computed index,
  `keystream[pos / sizeof(word)]` in `crypt`, goes through `Words.get`, which
  returns `none` outside of the array;
* a byte (`char`, `boost::uint8_t`) is a `Nat`, a buffer is a `List Nat`;
* `size_t` and `boost::uint64_t` are 64 bits wide, `pos` is a `boost::uint8_t`;
  `sizeof(word)` is 4 and `sizeof(keystream)` is 64, written as literals.
-/

namespace crypto

/-- The sixteen 32-bit words of a ChaCha matrix: `word state[16]`. -/
@[ext]
structure Words where
  w0 : Nat
  w1 : Nat
  w2 : Nat
  w3 : Nat
  w4 : Nat
  w5 : Nat
  w6 : Nat
  w7 : Nat
  w8 : Nat
  w9 : Nat
  w10 : Nat
  w11 : Nat
  w12 : Nat
  w13 : Nat
  w14 : Nat
  w15 : Nat
deriving DecidableEq, Repr

namespace Words

/-- The array read `m[i]` with a computed index; `none` is the read outside
of the sixteen words. -/
def get (m : Words) (i : Nat) : Option Nat :=
  match i with
  | 0 => some m.w0
  | 1 => some m.w1
  | 2 => some m.w2
  | 3 => some m.w3
  | 4 => some m.w4
  | 5 => some m.w5
  | 6 => some m.w6
  | 7 => some m.w7
  | 8 => some m.w8
  | 9 => some m.w9
  | 10 => some m.w10
  | 11 => some m.w11
  | 12 => some m.w12
  | 13 => some m.w13
  | 14 => some m.w14
  | 15 => some m.w15
  | _ => none

/-- The words in index order. -/
def toList (m : Words) : List Nat :=
  [m.w0, m.w1, m.w2, m.w3, m.w4, m.w5, m.w6, m.w7,
   m.w8, m.w9, m.w10, m.w11, m.w12, m.w13, m.w14, m.w15]

/-- Every word fits its type `boost::uint32_t`. -/
def wf (m : Words) : Prop :=
  ∀ x ∈ m.toList, x < 2 ^ 32

instance (m : Words) : Decidable m.wf :=
  inferInstanceAs (Decidable (∀ x ∈ m.toList, x < 2 ^ 32))

end Words

/-- Modelled from the spec: `util::rotl_fixed` of `util/math.hpp`, the
`rotate_left(x, n)` of a 32-bit word by a fixed amount `0 < n < 32`. -/
def rotl_fixed (x n : Nat) : Nat :=
  ((x <<< n) ||| (x >>> (32 - n))) % 2 ^ 32

/-- Modelled from the spec: `util::little_endian::load<word>` of
`util/endian.hpp`, the 32-bit word whose four bytes, least significant first,
are the bytes `off .. off + 3` of the buffer `p`. -/
def load (p : List Nat) (off : Nat) : Nat :=
  p.getD off 0 % 256 + 256 * (p.getD (off + 1) 0 % 256)
    + 65536 * (p.getD (off + 2) 0 % 256) + 16777216 * (p.getD (off + 3) 0 % 256)

/-- Modelled from the spec: `util::little_endian::store<word>` of
`util/endian.hpp`, the four bytes of a word, least significant first. -/
def store (x : Nat) : List Nat :=
  [x % 256, x / 256 % 256, x / 65536 % 256, x / 16777216 % 256]

/-- The macro `CHACHA20_QR(a, b, c, d)` of `run_rounds`: the quarter round on
four words, returned in the order `(a, b, c, d)`. -/
def CHACHA20_QR (a b c d : Nat) : Nat × Nat × Nat × Nat :=
  let a := (a + b) % 2 ^ 32
  let d := d ^^^ a
  let d := rotl_fixed d 16
  let c := (c + d) % 2 ^ 32
  let b := b ^^^ c
  let b := rotl_fixed b 12
  let a := (a + b) % 2 ^ 32
  let d := d ^^^ a
  let d := rotl_fixed d 8
  let c := (c + d) % 2 ^ 32
  let b := b ^^^ c
  let b := rotl_fixed b 7
  (a, b, c, d)

/-- One iteration of the loop of `run_rounds`: four column quarter rounds, then
four diagonal ones. -/
def run_rounds_body (k : Words) : Words :=
  let (a, b, c, d) := CHACHA20_QR k.w0 k.w4 k.w8 k.w12
  let k := { k with w0 := a, w4 := b, w8 := c, w12 := d }
  let (a, b, c, d) := CHACHA20_QR k.w1 k.w5 k.w9 k.w13
  let k := { k with w1 := a, w5 := b, w9 := c, w13 := d }
  let (a, b, c, d) := CHACHA20_QR k.w2 k.w6 k.w10 k.w14
  let k := { k with w2 := a, w6 := b, w10 := c, w14 := d }
  let (a, b, c, d) := CHACHA20_QR k.w3 k.w7 k.w11 k.w15
  let k := { k with w3 := a, w7 := b, w11 := c, w15 := d }
  let (a, b, c, d) := CHACHA20_QR k.w0 k.w5 k.w10 k.w15
  let k := { k with w0 := a, w5 := b, w10 := c, w15 := d }
  let (a, b, c, d) := CHACHA20_QR k.w1 k.w6 k.w11 k.w12
  let k := { k with w1 := a, w6 := b, w11 := c, w12 := d }
  let (a, b, c, d) := CHACHA20_QR k.w2 k.w7 k.w8 k.w13
  let k := { k with w2 := a, w7 := b, w8 := c, w13 := d }
  let (a, b, c, d) := CHACHA20_QR k.w3 k.w4 k.w9 k.w14
  { k with w3 := a, w4 := b, w9 := c, w14 := d }

/-- The block permutation `xchacha20::run_rounds`: ten iterations of the loop
body. -/
def run_rounds (keystream : Words) : Words :=
  run_rounds_body^[10] keystream

/-- The function `xchacha20::init_state`: the four constants in words 0-3 and
the key in words 4-11; the words 12-15 of `state` are left as they are. -/
def init_state (state : Words) (key : List Nat) : Words :=
  { state with
    w0 := 0x61707865, w1 := 0x3320646e, w2 := 0x79622d32, w3 := 0x6b206574,
    w4 := load key 0, w5 := load key 4, w6 := load key 8, w7 := load key 12,
    w8 := load key 16, w9 := load key 20, w10 := load key 24, w11 := load key 28 }

/-- The function `xchacha20::derive_subkey` (HChaCha20).  The local array
`state` of the source is uninitialised before `init_state`, which is why the
embedding takes its content `junk` as an argument; every word of it is
overwritten before it is read. -/
def derive_subkey_from (junk : Words) (key nonce : List Nat) : List Nat :=
  let state := init_state junk key
  let state := { state with w12 := load nonce 0 }
  let state := { state with w13 := load nonce 4 }
  let state := { state with w14 := load nonce 8 }
  let state := { state with w15 := load nonce 12 }
  let state := run_rounds state
  store state.w0 ++ store state.w1 ++ store state.w2 ++ store state.w3
    ++ store state.w12 ++ store state.w13 ++ store state.w14 ++ store state.w15

/-- The zero matrix. -/
def Words.zero : Words :=
  ⟨0, 0, 0, 0, 0, 0, 0, 0, 0, 0, 0, 0, 0, 0, 0, 0⟩

/-- The function `xchacha20::derive_subkey`, with the local array started at
zero (see `derive_subkey_from`: its start value is never read). -/
def derive_subkey (key nonce : List Nat) : List Nat :=
  derive_subkey_from Words.zero key nonce

/-- The function `xchacha20::increment_count`: adds `increment` to the 64-bit
counter held in the words 13 (high) and 12 (low), in `boost::uint64_t`
arithmetic. -/
def increment_count (state : Words) (increment : Nat) : Words :=
  let count := ((state.w13 <<< 32) % 2 ^ 64 + state.w12) % 2 ^ 64
  let count := (count + increment) % 2 ^ 64
  let state := { state with w12 := count % 2 ^ 32 }
  { state with w13 := (count >>> 32) % 2 ^ 32 }

/-- Modelled from the spec: the default value of the parameter `increment` of
`increment_count`, declared in `crypto/xchacha20.hpp`; `update` "increments the
64-bit counter held in `state` words 12-13 by one". -/
def increment_default : Nat := 1

/-- The loop `for(i < 16) keystream[i] += state[i]` of `update`. -/
def add_state (keystream state : Words) : Words :=
  { w0 := (keystream.w0 + state.w0) % 2 ^ 32
    w1 := (keystream.w1 + state.w1) % 2 ^ 32
    w2 := (keystream.w2 + state.w2) % 2 ^ 32
    w3 := (keystream.w3 + state.w3) % 2 ^ 32
    w4 := (keystream.w4 + state.w4) % 2 ^ 32
    w5 := (keystream.w5 + state.w5) % 2 ^ 32
    w6 := (keystream.w6 + state.w6) % 2 ^ 32
    w7 := (keystream.w7 + state.w7) % 2 ^ 32
    w8 := (keystream.w8 + state.w8) % 2 ^ 32
    w9 := (keystream.w9 + state.w9) % 2 ^ 32
    w10 := (keystream.w10 + state.w10) % 2 ^ 32
    w11 := (keystream.w11 + state.w11) % 2 ^ 32
    w12 := (keystream.w12 + state.w12) % 2 ^ 32
    w13 := (keystream.w13 + state.w13) % 2 ^ 32
    w14 := (keystream.w14 + state.w14) % 2 ^ 32
    w15 := (keystream.w15 + state.w15) % 2 ^ 32 }

/-- The members of the class `xchacha20`. -/
@[ext]
structure xchacha20 where
  state : Words
  keystream : Words
  pos : Nat
deriving DecidableEq, Repr

/-- The method `xchacha20::init`; `c` is the instance before the call. -/
def init (c : xchacha20) (key nonce : List Nat) : xchacha20 :=
  let subkey := derive_subkey key nonce
  let state := init_state c.state subkey
  let state := { state with w12 := 0 }
  let state := { state with w13 := 0 }
  let state := { state with w14 := load nonce 16 }
  let state := { state with w15 := load nonce 20 }
  { c with state := state, pos := 64 }

/-- The method `xchacha20::update`. -/
def update (c : xchacha20) : xchacha20 :=
  let keystream := c.state
  let keystream := run_rounds keystream
  let keystream := add_state keystream c.state
  { c with keystream := keystream, state := increment_count c.state increment_default }

/-- The method `xchacha20::discard`. -/
def discard (c : xchacha20) (length : Nat) : xchacha20 :=
  let (c, length) :=
    if c.pos ≠ 64 then
      let remaining := min length ((64 + 2 ^ 64 - c.pos) % 2 ^ 64)
      ({ c with pos := (c.pos + remaining) % 256 }, length - remaining)
    else (c, length)
  let c := { c with state := increment_count c.state (length / 64) }
  if length % 64 ≠ 0 then
    let c := update c
    { c with pos := length % 64 % 256 }
  else c

/-- The method `xchacha20::crypt`: the loop over the bytes of `in`, of which
the list is the part not yet read; the result is the instance after the call
and the bytes written to `out`, or `none` when `keystream` is read outside of
its sixteen words. -/
def crypt (c : xchacha20) : List Nat → Option (xchacha20 × List Nat)
  | [] => some (c, [])
  | b :: rest =>
    let c := if c.pos = 64 then { update c with pos := 0 } else c
    match c.keystream.get (c.pos / 4) with
    | none => none
    | some w =>
      let key := (w >>> (c.pos % 4 * 8)) % 256
      let o := (b % 256) ^^^ key
      match crypt { c with pos := (c.pos + 1) % 256 } rest with
      | none => none
      | some (c, out) => some (c, o :: out)

/-! ## Notions used in the statements and proofs -/

/-- The keystream block made from a matrix: the permuted matrix plus the
matrix itself, word by word. -/
def block (s : Words) : Words :=
  add_state (run_rounds s) s

/-- The instance at the read of `crypt`: an exhausted cursor has been refilled
by `update` and set to 0. -/
def refill (c : xchacha20) : xchacha20 :=
  if c.pos = 64 then { update c with pos := 0 } else c

/-- The keystream byte that the next iteration of `crypt` reads. -/
def key_byte (c : xchacha20) : Option Nat :=
  ((refill c).keystream.get ((refill c).pos / 4)).map
    (fun w => (w >>> ((refill c).pos % 4 * 8)) % 256)

/-- The instance after one iteration of the loop of `crypt`. -/
def advance (c : xchacha20) : xchacha20 :=
  { refill c with pos := ((refill c).pos + 1) % 256 }

/-- The next `n` keystream bytes of an instance. -/
def keystream_bytes (c : xchacha20) : Nat → List Nat
  | 0 => []
  | n + 1 => (key_byte c).getD 0 :: keystream_bytes (advance c) n

/-- Two instances that continue the same stream: same `state`, same `pos`, and
the same `keystream` unless the cursor is exhausted. -/
def same_stream (c d : xchacha20) : Prop :=
  c.state = d.state ∧ c.pos = d.pos ∧ (c.pos ≠ 64 → c.keystream = d.keystream)

/-- The 64-bit counter held in the words 13 (high) and 12 (low). -/
def counter (s : Words) : Nat :=
  s.w13 * 2 ^ 32 + s.w12

/-- Every byte of a buffer is a byte. -/
def bytes (p : List Nat) : Prop :=
  ∀ b ∈ p, b < 256

instance (p : List Nat) : Decidable (bytes p) :=
  inferInstanceAs (Decidable (∀ b ∈ p, b < 256))

/-- A call of the public interface after `init`. -/
inductive Call where
  | crypt (input : List Nat)
  | discard (length : Nat)
deriving DecidableEq, Repr

/-- The number of stream bytes a call consumes. -/
def Call.length : Call → Nat
  | .crypt input => input.length
  | .discard n => n

/-- A sequence of calls on an instance: the instance after the last call and
the outputs of the `crypt` calls, in order. -/
def run (c : xchacha20) : List Call → Option (xchacha20 × List (List Nat))
  | [] => some (c, [])
  | .crypt input :: calls =>
    match crypt c input with
    | none => none
    | some (c, out) =>
      match run c calls with
      | none => none
      | some (c, outs) => some (c, out :: outs)
  | .discard n :: calls => run (discard c n) calls

/-- The byte that `crypt` writes for the input byte `b` and keystream byte `k`. -/
def out_byte (b k : Nat) : Nat :=
  b % 256 ^^^ k

/-- The total length of a sequence of calls. -/
def stream_length (calls : List Call) : Nat :=
  (calls.map Call.length).sum

/-- The instance of the examples: every word zero and the cursor exhausted. -/
def zero_instance : xchacha20 :=
  ⟨Words.zero, Words.zero, 64⟩

/-- The calls of the example of a wrapped counter: 64 seeks of `2^64 - 1` bytes
and one of one byte, `2^70 - 63` bytes in all. -/
def wrap_calls : List Call :=
  List.replicate 64 (Call.discard (2 ^ 64 - 1)) ++ [Call.discard 1]

/-- The frame of the working state: the words 0-11 and 14-15 of two matrices
agree, only the counter words 12 and 13 may differ. -/
def frame (s t : Words) : Prop :=
  s.w0 = t.w0 ∧ s.w1 = t.w1 ∧ s.w2 = t.w2 ∧ s.w3 = t.w3 ∧ s.w4 = t.w4 ∧ s.w5 = t.w5
    ∧ s.w6 = t.w6 ∧ s.w7 = t.w7 ∧ s.w8 = t.w8 ∧ s.w9 = t.w9 ∧ s.w10 = t.w10
    ∧ s.w11 = t.w11 ∧ s.w14 = t.w14 ∧ s.w15 = t.w15

instance (s t : Words) : Decidable (frame s t) :=
  inferInstanceAs (Decidable (s.w0 = t.w0 ∧ s.w1 = t.w1 ∧ s.w2 = t.w2 ∧ s.w3 = t.w3
    ∧ s.w4 = t.w4 ∧ s.w5 = t.w5 ∧ s.w6 = t.w6 ∧ s.w7 = t.w7 ∧ s.w8 = t.w8 ∧ s.w9 = t.w9
    ∧ s.w10 = t.w10 ∧ s.w11 = t.w11 ∧ s.w14 = t.w14 ∧ s.w15 = t.w15))

/-- A matrix with its 64-bit counter replaced by `k`: the low half in word 12,
the high half in word 13. -/
def set_counter (s : Words) (k : Nat) : Words :=
  { s with w12 := k % 2 ^ 32, w13 := k / 2 ^ 32 % 2 ^ 32 }

/-- The cursor values at the reads `keystream[pos / sizeof(word)]` of the loop of
`crypt`, one per iteration, in order; the loop is followed as in `crypt`, but
past a read outside of the array as well. -/
def crypt_reads (c : xchacha20) : List Nat → List Nat
  | [] => []
  | _ :: rest =>
    let c := if c.pos = 64 then { update c with pos := 0 } else c
    c.pos :: crypt_reads { c with pos := (c.pos + 1) % 256 } rest

/-- An instance in the middle of a block: every word zero and the cursor at 3. -/
def midblock_instance : xchacha20 :=
  ⟨Words.zero, Words.zero, 3⟩

/-- The inverse of the quarter round `CHACHA20_QR`: its steps undone from the
last to the first; a rotation to the right by `n` is one to the left by
`32 - n`, a wrapping subtraction adds `2^32` first. -/
def CHACHA20_QR_inv (a b c d : Nat) : Nat × Nat × Nat × Nat :=
  let b := rotl_fixed b 25 ^^^ c
  let c := (c + 2 ^ 32 - d) % 2 ^ 32
  let d := rotl_fixed d 24 ^^^ a
  let a := (a + 2 ^ 32 - b) % 2 ^ 32
  let b := rotl_fixed b 20 ^^^ c
  let c := (c + 2 ^ 32 - d) % 2 ^ 32
  let d := rotl_fixed d 16 ^^^ a
  let a := (a + 2 ^ 32 - b) % 2 ^ 32
  (a, b, c, d)

/-- The inverse of one iteration of the loop of `run_rounds`: the eight quarter
rounds undone from the last to the first. -/
def run_rounds_body_inv (k : Words) : Words :=
  let (a, b, c, d) := CHACHA20_QR_inv k.w3 k.w4 k.w9 k.w14
  let k := { k with w3 := a, w4 := b, w9 := c, w14 := d }
  let (a, b, c, d) := CHACHA20_QR_inv k.w2 k.w7 k.w8 k.w13
  let k := { k with w2 := a, w7 := b, w8 := c, w13 := d }
  let (a, b, c, d) := CHACHA20_QR_inv k.w1 k.w6 k.w11 k.w12
  let k := { k with w1 := a, w6 := b, w11 := c, w12 := d }
  let (a, b, c, d) := CHACHA20_QR_inv k.w0 k.w5 k.w10 k.w15
  let k := { k with w0 := a, w5 := b, w10 := c, w15 := d }
  let (a, b, c, d) := CHACHA20_QR_inv k.w3 k.w7 k.w11 k.w15
  let k := { k with w3 := a, w7 := b, w11 := c, w15 := d }
  let (a, b, c, d) := CHACHA20_QR_inv k.w2 k.w6 k.w10 k.w14
  let k := { k with w2 := a, w6 := b, w10 := c, w14 := d }
  let (a, b, c, d) := CHACHA20_QR_inv k.w1 k.w5 k.w9 k.w13
  let k := { k with w1 := a, w5 := b, w9 := c, w13 := d }
  let (a, b, c, d) := CHACHA20_QR_inv k.w0 k.w4 k.w8 k.w12
  { k with w0 := a, w4 := b, w8 := c, w12 := d }

/-- The inverse of the block permutation `run_rounds`. -/
def run_rounds_inv (keystream : Words) : Words :=
  run_rounds_body_inv^[10] keystream

/-- The four column quarter rounds of an iteration of `run_rounds`, with the
results read through projections. -/
def column_round (k : Words) : Words :=
  let r0 := CHACHA20_QR k.w0 k.w4 k.w8 k.w12
  let r1 := CHACHA20_QR k.w1 k.w5 k.w9 k.w13
  let r2 := CHACHA20_QR k.w2 k.w6 k.w10 k.w14
  let r3 := CHACHA20_QR k.w3 k.w7 k.w11 k.w15
  { w0 := r0.1, w1 := r1.1, w2 := r2.1, w3 := r3.1
    w4 := r0.2.1, w5 := r1.2.1, w6 := r2.2.1, w7 := r3.2.1
    w8 := r0.2.2.1, w9 := r1.2.2.1, w10 := r2.2.2.1, w11 := r3.2.2.1
    w12 := r0.2.2.2, w13 := r1.2.2.2, w14 := r2.2.2.2, w15 := r3.2.2.2 }

/-- The four diagonal quarter rounds of an iteration of `run_rounds`, with the
results read through projections. -/
def diagonal_round (k : Words) : Words :=
  let r0 := CHACHA20_QR k.w0 k.w5 k.w10 k.w15
  let r1 := CHACHA20_QR k.w1 k.w6 k.w11 k.w12
  let r2 := CHACHA20_QR k.w2 k.w7 k.w8 k.w13
  let r3 := CHACHA20_QR k.w3 k.w4 k.w9 k.w14
  { w0 := r0.1, w1 := r1.1, w2 := r2.1, w3 := r3.1
    w4 := r3.2.1, w5 := r0.2.1, w6 := r1.2.1, w7 := r2.2.1
    w8 := r2.2.2.1, w9 := r3.2.2.1, w10 := r0.2.2.1, w11 := r1.2.2.1
    w12 := r1.2.2.2, w13 := r2.2.2.2, w14 := r3.2.2.2, w15 := r0.2.2.2 }

/-- The inverse of `column_round`. -/
def column_round_inv (k : Words) : Words :=
  let r0 := CHACHA20_QR_inv k.w0 k.w4 k.w8 k.w12
  let r1 := CHACHA20_QR_inv k.w1 k.w5 k.w9 k.w13
  let r2 := CHACHA20_QR_inv k.w2 k.w6 k.w10 k.w14
  let r3 := CHACHA20_QR_inv k.w3 k.w7 k.w11 k.w15
  { w0 := r0.1, w1 := r1.1, w2 := r2.1, w3 := r3.1
    w4 := r0.2.1, w5 := r1.2.1, w6 := r2.2.1, w7 := r3.2.1
    w8 := r0.2.2.1, w9 := r1.2.2.1, w10 := r2.2.2.1, w11 := r3.2.2.1
    w12 := r0.2.2.2, w13 := r1.2.2.2, w14 := r2.2.2.2, w15 := r3.2.2.2 }

/-- The inverse of `diagonal_round`. -/
def diagonal_round_inv (k : Words) : Words :=
  let r0 := CHACHA20_QR_inv k.w0 k.w5 k.w10 k.w15
  let r1 := CHACHA20_QR_inv k.w1 k.w6 k.w11 k.w12
  let r2 := CHACHA20_QR_inv k.w2 k.w7 k.w8 k.w13
  let r3 := CHACHA20_QR_inv k.w3 k.w4 k.w9 k.w14
  { w0 := r0.1, w1 := r1.1, w2 := r2.1, w3 := r3.1
    w4 := r3.2.1, w5 := r0.2.1, w6 := r1.2.1, w7 := r2.2.1
    w8 := r2.2.2.1, w9 := r3.2.2.1, w10 := r0.2.2.1, w11 := r1.2.2.1
    w12 := r1.2.2.2, w13 := r2.2.2.2, w14 := r3.2.2.2, w15 := r0.2.2.2 }

/-! ## Definitions that follow the words of the specification -/

/-- The little-endian serialisation of a matrix: its sixteen words in index
order, each least significant byte first. -/
def serialise (m : Words) : List Nat :=
  m.toList.flatMap store

/-- The matrix `S_k` of the specification of the keystream: the four
constants, the eight little-endian words of the subkey derived from the key
and the first 16 bytes of the nonce, the counter `k` in the words 12 (low) and
13 (high), and the two little-endian words of the last 8 bytes of the nonce. -/
def spec_matrix (key nonce : List Nat) (k : Nat) : Words :=
  let subkey := derive_subkey key (nonce.take 16)
  { w0 := 0x61707865, w1 := 0x3320646e, w2 := 0x79622d32, w3 := 0x6b206574
    w4 := load subkey 0, w5 := load subkey 4, w6 := load subkey 8, w7 := load subkey 12
    w8 := load subkey 16, w9 := load subkey 20, w10 := load subkey 24, w11 := load subkey 28
    w12 := k % 2 ^ 32, w13 := k / 2 ^ 32 % 2 ^ 32
    w14 := load (nonce.drop 16) 0, w15 := load (nonce.drop 16) 4 }

/-- The block `run_rounds(S) + S` of the specification, written out: the
sixteen sums of a word of the permuted matrix and the same word of the matrix
itself, each modulo `2^32`, in index order. -/
def spec_block (s : Words) : List Nat :=
  List.zipWith (fun r a => (r + a) % 2 ^ 32) (run_rounds s).toList s.toList

/-- The keystream byte `K[i]` of the specification: byte `i mod 64` of the
little-endian serialisation of the block `B_k = run_rounds(S_k) + S_k` (word by
word, modulo `2^32`), `k = i / 64`. -/
def spec_keystream (key nonce : List Nat) (i : Nat) : Nat :=
  ((spec_block (spec_matrix key nonce (i / 64))).flatMap store).getD (i % 64) 0

/-- The matrix `M` of the specification of HChaCha20: the constants, the key in
the words 4-11 and the 16-byte nonce in the words 12-15. -/
def spec_hchacha_matrix (key nonce16 : List Nat) : Words :=
  { w0 := 0x61707865, w1 := 0x3320646e, w2 := 0x79622d32, w3 := 0x6b206574
    w4 := load key 0, w5 := load key 4, w6 := load key 8, w7 := load key 12
    w8 := load key 16, w9 := load key 20, w10 := load key 24, w11 := load key 28
    w12 := load nonce16 0, w13 := load nonce16 4, w14 := load nonce16 8, w15 := load nonce16 12 }

/-- The subkey of the specification of HChaCha20: the words 0, 1, 2, 3, 12, 13,
14, 15 of the permuted matrix `m`, serialised little-endian in this order. -/
def spec_subkey (m : Words) : List Nat :=
  [m.w0, m.w1, m.w2, m.w3, m.w12, m.w13, m.w14, m.w15].flatMap store

/-- The length left after the partial-block step of `discard(N)`, in the words
of the specification: `N - min(N, 64 - pos)` when `pos < 64`, `N` itself when
`pos = 64`. -/
def spec_discard_left (pos N : Nat) : Nat :=
  if pos < 64 then N - min N (64 - pos) else N

/-! ## The loop of `crypt` -/

theorem crypt_cons (c : xchacha20) (b : Nat) (rest : List Nat) :
    crypt c (b :: rest) =
      match key_byte c with
      | none => none
      | some k =>
        match crypt (advance c) rest with
        | none => none
        | some (d, out) => some (d, (b % 256 ^^^ k) :: out) := by
  simp only [crypt, key_byte, advance, refill]
  cases h : Words.get (if c.pos = 64 then { update c with pos := 0 } else c).keystream
      ((if c.pos = 64 then { update c with pos := 0 } else c).pos / 4) <;> simp

theorem Words.get_lt (m : Words) {i : Nat} (h : i < 16) : ∃ w, m.get i = some w := by
  interval_cases i <;> exact ⟨_, rfl⟩

theorem refill_pos_lt {c : xchacha20} (h : c.pos ≤ 64) : (refill c).pos < 64 := by
  unfold refill
  split
  · simp
  · omega

theorem key_byte_some {c : xchacha20} (h : c.pos ≤ 64) : ∃ k, key_byte c = some k := by
  have h1 := refill_pos_lt h
  obtain ⟨w, hw⟩ := (refill c).keystream.get_lt (i := (refill c).pos / 4) (by omega)
  exact ⟨(w >>> ((refill c).pos % 4 * 8)) % 256, by simp [key_byte, hw]⟩

theorem advance_pos {c : xchacha20} (h : c.pos ≤ 64) :
    1 ≤ (advance c).pos ∧ (advance c).pos ≤ 64 := by
  have h1 := refill_pos_lt h
  simp only [advance]
  omega

theorem iterate_advance_pos {c : xchacha20} (h : c.pos ≤ 64) (n : Nat) :
    (advance^[n] c).pos ≤ 64 := by
  induction n generalizing c with
  | zero => simpa using h
  | succ n ih => rw [Function.iterate_succ_apply]; exact ih (advance_pos h).2

theorem keystream_bytes_length (c : xchacha20) (n : Nat) :
    (keystream_bytes c n).length = n := by
  induction n generalizing c with
  | zero => rfl
  | succ n ih => simp [keystream_bytes, ih]

/-- The closed form of `crypt`: on a cursor within its range the call returns,
its final state is the one advanced once per byte, and it writes the input XOR
the keystream bytes. -/
theorem crypt_eq {c : xchacha20} (h : c.pos ≤ 64) (x : List Nat) :
    crypt c x = some (advance^[x.length] c,
      List.zipWith (fun b k => b % 256 ^^^ k) x (keystream_bytes c x.length)) := by
  induction x generalizing c with
  | nil => simp [crypt, keystream_bytes]
  | cons b rest ih =>
    obtain ⟨k, hk⟩ := key_byte_some h
    rw [crypt_cons, hk]
    simp only [ih (advance_pos h).2, List.length_cons, Function.iterate_succ_apply,
      keystream_bytes, hk, Option.getD_some, List.zipWith_cons_cons]

theorem keystream_bytes_getD (c : xchacha20) (n i : Nat) (h : i < n) :
    (keystream_bytes c n).getD i 0 = (key_byte (advance^[i] c)).getD 0 := by
  induction n generalizing c i with
  | zero => omega
  | succ n ih =>
    cases i with
    | zero => simp [keystream_bytes]
    | succ i =>
      simp only [keystream_bytes, List.getD_cons_succ, Function.iterate_succ_apply]
      exact ih _ _ (by omega)

theorem keystream_bytes_add (c : xchacha20) (m n : Nat) :
    keystream_bytes c (m + n) = keystream_bytes c m ++ keystream_bytes (advance^[m] c) n := by
  induction m generalizing c with
  | zero => simp [keystream_bytes]
  | succ m ih =>
    rw [show m + 1 + n = (m + n) + 1 by omega]
    simp only [keystream_bytes, Function.iterate_succ_apply, ih, List.cons_append]

/-! ## Instances that continue the same stream -/

theorem same_stream_refl (c : xchacha20) : same_stream c c :=
  ⟨rfl, rfl, fun _ => rfl⟩

theorem same_stream_symm {c d : xchacha20} (h : same_stream c d) : same_stream d c :=
  ⟨h.1.symm, h.2.1.symm, fun hp => (h.2.2 (by rw [h.2.1]; exact hp)).symm⟩

theorem same_stream_trans {c d e : xchacha20} (h : same_stream c d) (k : same_stream d e) :
    same_stream c e :=
  ⟨h.1.trans k.1, h.2.1.trans k.2.1,
    fun hp => (h.2.2 hp).trans (k.2.2 (by rw [← h.2.1]; exact hp))⟩

theorem refill_congr {c d : xchacha20} (h : same_stream c d) : refill c = refill d := by
  obtain ⟨hs, hp, hk⟩ := h
  cases c with
  | mk cs ck cp =>
    cases d with
    | mk ds dk dp =>
      simp only at hs hp hk
      subst hs hp
      by_cases h64 : cp = 64
      · simp [refill, update, h64]
      · rw [hk h64]

theorem key_byte_congr {c d : xchacha20} (h : same_stream c d) : key_byte c = key_byte d := by
  simp only [key_byte, refill_congr h]

theorem advance_congr {c d : xchacha20} (h : same_stream c d) : advance c = advance d := by
  simp only [advance, refill_congr h]

theorem iterate_advance_congr {c d : xchacha20} (h : same_stream c d) (n : Nat) :
    same_stream (advance^[n] c) (advance^[n] d) := by
  cases n with
  | zero => simpa using h
  | succ n =>
    rw [Function.iterate_succ_apply, Function.iterate_succ_apply, advance_congr h]
    exact same_stream_refl _

theorem keystream_bytes_congr {c d : xchacha20} (h : same_stream c d) (n : Nat) :
    keystream_bytes c n = keystream_bytes d n := by
  cases n with
  | zero => rfl
  | succ n => simp only [keystream_bytes, key_byte_congr h, advance_congr h]

/-! ## The counter -/

theorem Words.wf_iff (m : Words) :
    m.wf ↔ m.w0 < 2 ^ 32 ∧ m.w1 < 2 ^ 32 ∧ m.w2 < 2 ^ 32 ∧ m.w3 < 2 ^ 32 ∧ m.w4 < 2 ^ 32
      ∧ m.w5 < 2 ^ 32 ∧ m.w6 < 2 ^ 32 ∧ m.w7 < 2 ^ 32 ∧ m.w8 < 2 ^ 32 ∧ m.w9 < 2 ^ 32
      ∧ m.w10 < 2 ^ 32 ∧ m.w11 < 2 ^ 32 ∧ m.w12 < 2 ^ 32 ∧ m.w13 < 2 ^ 32 ∧ m.w14 < 2 ^ 32
      ∧ m.w15 < 2 ^ 32 := by
  simp [Words.wf, Words.toList]

theorem increment_count_eq (s : Words) (n : Nat) :
    increment_count s n =
      { s with
        w12 := (((s.w13 * 4294967296) % 18446744073709551616 + s.w12) % 18446744073709551616
          + n) % 18446744073709551616 % 4294967296,
        w13 := (((s.w13 * 4294967296) % 18446744073709551616 + s.w12) % 18446744073709551616
          + n) % 18446744073709551616 / 4294967296 % 4294967296 } := by
  simp [increment_count, Nat.shiftLeft_eq, Nat.shiftRight_eq_div_pow]

theorem increment_count_add (s : Words) (a b : Nat) :
    increment_count (increment_count s a) b = increment_count s (a + b) := by
  apply Words.ext <;> simp only [increment_count_eq] <;> omega

theorem increment_count_zero {s : Words} (h : s.wf) : increment_count s 0 = s := by
  rw [Words.wf_iff] at h
  apply Words.ext <;> simp only [increment_count_eq] <;> omega

theorem increment_count_wf {s : Words} (h : s.wf) (n : Nat) : (increment_count s n).wf := by
  rw [Words.wf_iff] at h ⊢
  simp only [increment_count_eq]
  refine ⟨h.1, h.2.1, h.2.2.1, h.2.2.2.1, h.2.2.2.2.1, h.2.2.2.2.2.1, h.2.2.2.2.2.2.1,
    h.2.2.2.2.2.2.2.1, h.2.2.2.2.2.2.2.2.1, h.2.2.2.2.2.2.2.2.2.1, h.2.2.2.2.2.2.2.2.2.2.1,
    h.2.2.2.2.2.2.2.2.2.2.2.1, ?_, ?_, h.2.2.2.2.2.2.2.2.2.2.2.2.2.2.1,
    h.2.2.2.2.2.2.2.2.2.2.2.2.2.2.2⟩ <;> omega

theorem counter_increment_count (s : Words) (n : Nat) :
    counter (increment_count s n) = (counter s + n) % 2 ^ 64 := by
  simp only [increment_count_eq, counter]
  omega

/-! ## The closed form of `discard` -/

theorem update_eq (c : xchacha20) :
    update c = { state := increment_count c.state 1, keystream := block c.state, pos := c.pos } :=
  rfl

/-- A seek that stays within the current block only moves the cursor. -/
theorem discard_within {c : xchacha20} (hw : c.state.wf) (n : Nat) (h : c.pos + n ≤ 64) :
    discard c n = { c with pos := c.pos + n } := by
  by_cases hp : c.pos = 64
  · have hn : n = 0 := by omega
    subst hn
    simp [discard, hp, increment_count_zero hw]
  · have hm : min n ((18446744073709551680 - c.pos) % 18446744073709551616) = n := by
      omega
    have h0 : (n - n) / 64 = 0 := by simp
    have h256 : (c.pos + n) % 256 = c.pos + n := by omega
    simp [discard, hp, hm, h0, h256, increment_count_zero hw]

/-- A seek that leaves the current block: `L` bytes remain to skip once the
block is finished; `L / 64` blocks are skipped by the counter alone and one
more block is generated when the seek ends inside of it. -/
theorem discard_beyond {c : xchacha20} (hp : c.pos ≤ 64) (n : Nat) (h : 64 < c.pos + n) :
    discard c n =
      if (c.pos + n - 64) % 64 = 0 then
        { c with pos := 64, state := increment_count c.state ((c.pos + n - 64) / 64) }
      else
        { state := increment_count (increment_count c.state ((c.pos + n - 64) / 64)) 1,
          keystream := block (increment_count c.state ((c.pos + n - 64) / 64)),
          pos := (c.pos + n - 64) % 64 } := by
  by_cases h64 : c.pos = 64
  · have e : c.pos + n - 64 = n := by omega
    have h256 : n % 64 % 256 = n % 64 := by omega
    rw [e]
    by_cases hr : n % 64 = 0
    · simp [discard, h64, hr]
    · simp [discard, h64, hr, update_eq, h256]
  · have hm : min n ((18446744073709551680 - c.pos) % 18446744073709551616) = 64 - c.pos := by
      omega
    have e : n - (64 - c.pos) = c.pos + n - 64 := by omega
    have e2 : (c.pos + (64 - c.pos)) % 256 = 64 := by omega
    have h256 : (c.pos + n - 64) % 64 % 256 = (c.pos + n - 64) % 64 := by omega
    by_cases hr : (c.pos + n - 64) % 64 = 0
    · simp [discard, h64, hm, e, e2, hr]
    · simp [discard, h64, hm, e, e2, hr, update_eq, h256]

theorem refill_eq_of_ne {c : xchacha20} (h : c.pos ≠ 64) : refill c = c := by
  simp [refill, h]

theorem refill_eq_of_eq {c : xchacha20} (h : c.pos = 64) :
    refill c = { state := increment_count c.state 1, keystream := block c.state, pos := 0 } := by
  simp [refill, h, update_eq]

theorem advance_state_wf {c : xchacha20} (h : c.state.wf) : (advance c).state.wf := by
  by_cases hp : c.pos = 64
  · simp only [advance, refill_eq_of_eq hp]
    exact increment_count_wf h 1
  · simpa only [advance, refill_eq_of_ne hp] using h

theorem iterate_advance_state_wf {c : xchacha20} (h : c.state.wf) (n : Nat) :
    (advance^[n] c).state.wf := by
  induction n generalizing c with
  | zero => simpa using h
  | succ n ih => rw [Function.iterate_succ_apply]; exact ih (advance_state_wf h)

/-- Seeking one byte further is one more iteration of the loop of `crypt`. -/
theorem discard_succ {c : xchacha20} (hw : c.state.wf) (hp : c.pos ≤ 64) (n : Nat) :
    same_stream (discard c (n + 1)) (advance (discard c n)) := by
  rcases Nat.lt_or_ge (c.pos + n) 64 with h | h
  · rw [discard_within hw (n + 1) (by omega), discard_within hw n (by omega)]
    have e : (c.pos + n + 1) % 256 = c.pos + (n + 1) := by omega
    rw [advance, refill_eq_of_ne (by simp only; omega)]
    simp only [e]
    exact same_stream_refl _
  rcases Nat.eq_or_lt_of_le h with h | h
  · rw [discard_within hw n (by omega), discard_beyond hp (n + 1) (by omega)]
    have e1 : (c.pos + (n + 1) - 64) % 64 = 1 := by omega
    have e2 : (c.pos + (n + 1) - 64) / 64 = 0 := by omega
    rw [advance, refill_eq_of_eq (by simp only; omega)]
    simp only [e1, e2, increment_count_zero hw]
    exact same_stream_refl _
  · rw [discard_beyond hp n h, discard_beyond hp (n + 1) (by omega)]
    have eL : c.pos + (n + 1) - 64 = (c.pos + n - 64) + 1 := by omega
    rw [eL]
    generalize c.pos + n - 64 = L
    by_cases hr : L % 64 = 0
    · have e1 : (L + 1) % 64 = 1 := by omega
      have e2 : (L + 1) / 64 = L / 64 := by omega
      rw [if_pos hr, if_neg (by omega), advance, refill_eq_of_eq rfl]
      simp only [e1, e2]
      exact same_stream_refl _
    · rw [if_neg hr, advance, refill_eq_of_ne (by simp only; omega)]
      by_cases h63 : L % 64 = 63
      · have e1 : (L + 1) % 64 = 0 := by omega
        have e2 : (L + 1) / 64 = L / 64 + 1 := by omega
        rw [if_pos e1]
        simp only [e2, h63, increment_count_add]
        exact ⟨rfl, rfl, fun hne => absurd rfl hne⟩
      · have e1 : (L + 1) % 64 = L % 64 + 1 := by omega
        have e3 : (L % 64 + 1) % 256 = L % 64 + 1 := by omega
        have e2 : (L + 1) / 64 = L / 64 := by omega
        rw [if_neg (by omega)]
        simp only [e1, e2, e3]
        exact same_stream_refl _

/-- The instance after `n` iterations of the loop of `crypt` continues the same
stream as the instance after `discard(n)`. -/
theorem iterate_advance_discard {c : xchacha20} (hw : c.state.wf) (hp : c.pos ≤ 64) (n : Nat) :
    same_stream (advance^[n] c) (discard c n) := by
  induction n with
  | zero =>
    rw [discard_within hw 0 (by omega)]
    exact same_stream_refl _
  | succ n ih =>
    rw [Function.iterate_succ_apply', advance_congr ih]
    exact same_stream_symm (discard_succ hw hp n)

theorem discard_pos {c : xchacha20} (hw : c.state.wf) (hp : c.pos ≤ 64) (n : Nat) :
    (discard c n).pos ≤ 64 := by
  rw [← (iterate_advance_discard hw hp n).2.1]
  exact iterate_advance_pos hp n

theorem discard_state_wf {c : xchacha20} (hw : c.state.wf) (hp : c.pos ≤ 64) (n : Nat) :
    (discard c n).state.wf := by
  rw [← (iterate_advance_discard hw hp n).1]
  exact iterate_advance_state_wf hw n

theorem discard_congr {c d : xchacha20} (hw : c.state.wf) (hp : c.pos ≤ 64)
    (h : same_stream c d) (n : Nat) : same_stream (discard c n) (discard d n) :=
  same_stream_trans (same_stream_symm (iterate_advance_discard hw hp n))
    (same_stream_trans (iterate_advance_congr h n)
      (iterate_advance_discard (h.1 ▸ hw) (h.2.1 ▸ hp) n))

/-! ## Outputs of `crypt` -/

theorem crypt_eq_out {c : xchacha20} (h : c.pos ≤ 64) (x : List Nat) :
    crypt c x = some (advance^[x.length] c,
      List.zipWith out_byte x (keystream_bytes c x.length)) :=
  crypt_eq h x

theorem zipWith_out_byte_length (x ks : List Nat) (h : ks.length = x.length) :
    (List.zipWith out_byte x ks).length = x.length := by
  simp [h]

theorem zipWith_out_byte_getD (x ks : List Nat) (h : ks.length = x.length) (i : Nat)
    (hi : i < x.length) :
    (List.zipWith out_byte x ks).getD i 0 = out_byte (x.getD i 0) (ks.getD i 0) := by
  induction x generalizing ks i with
  | nil => simp at hi
  | cons b x ih =>
    cases ks with
    | nil => simp at h
    | cons k ks =>
      cases i with
      | zero => simp
      | succ i =>
        simp only [List.zipWith_cons_cons, List.getD_cons_succ]
        exact ih ks (by simpa using h) i (by simpa using hi)

theorem key_byte_lt (c : xchacha20) : (key_byte c).getD 0 < 256 := by
  unfold key_byte
  cases (refill c).keystream.get ((refill c).pos / 4) with
  | none => simp
  | some w => simp only [Option.map_some', Option.getD_some]; omega

theorem keystream_bytes_lt (c : xchacha20) (n : Nat) : bytes (keystream_bytes c n) := by
  induction n generalizing c with
  | zero => simp [keystream_bytes, bytes]
  | succ n ih =>
    intro b hb
    simp only [keystream_bytes, List.mem_cons] at hb
    rcases hb with hb | hb
    · rw [hb]; exact key_byte_lt c
    · exact ih _ b hb

theorem xor_lt_256 {a b : Nat} (ha : a < 256) (hb : b < 256) : a ^^^ b < 256 :=
  Nat.xor_lt_two_pow (n := 8) ha hb

theorem out_byte_lt {b k : Nat} (hk : k < 256) : out_byte b k < 256 :=
  xor_lt_256 (Nat.mod_lt _ (by decide)) hk

theorem out_byte_out_byte {b k : Nat} (hb : b < 256) (hk : k < 256) :
    out_byte (out_byte b k) k = b := by
  have h := out_byte_lt (b := b) hk
  unfold out_byte at h ⊢
  rw [Nat.mod_eq_of_lt h, Nat.mod_eq_of_lt hb, Nat.xor_assoc, Nat.xor_self, Nat.xor_zero]

theorem out_byte_xor {b k : Nat} (hb : b < 256) : out_byte b k ^^^ b = k := by
  unfold out_byte
  rw [Nat.mod_eq_of_lt hb, Nat.xor_comm b k, Nat.xor_assoc, Nat.xor_self, Nat.xor_zero]

theorem zipWith_out_byte_twice (x ks : List Nat) (hx : bytes x) (hk : bytes ks) :
    List.zipWith out_byte (List.zipWith out_byte x ks) ks = List.zipWith (fun b _ => b) x ks := by
  induction x generalizing ks with
  | nil => simp
  | cons b x ih =>
    cases ks with
    | nil => simp
    | cons k ks =>
      simp only [List.zipWith_cons_cons, List.cons.injEq]
      exact ⟨out_byte_out_byte (hx b (by simp)) (hk k (by simp)),
        ih ks (fun a ha => hx a (by simp [ha])) (fun a ha => hk a (by simp [ha]))⟩

theorem zipWith_fst (x ks : List Nat) (h : ks.length = x.length) :
    List.zipWith (fun b _ => b) x ks = x := by
  induction x generalizing ks with
  | nil => simp
  | cons b x ih =>
    cases ks with
    | nil => simp at h
    | cons k ks => simp [ih ks (by simpa using h)]

theorem zipWith_out_byte_zero (n : Nat) (ks : List Nat) (h : ks.length = n) :
    List.zipWith out_byte (List.replicate n 0) ks = ks := by
  induction n generalizing ks with
  | zero => cases ks <;> simp_all
  | succ n ih =>
    cases ks with
    | nil => simp at h
    | cons k ks =>
      simp only [List.replicate_succ, List.zipWith_cons_cons, List.cons.injEq]
      exact ⟨by simp [out_byte], ih ks (by simpa using h)⟩

theorem zipWith_out_byte_eq_xor (x ks : List Nat) (hx : bytes x) :
    List.zipWith out_byte x ks = List.zipWith (fun b k => b ^^^ k) x ks := by
  induction x generalizing ks with
  | nil => simp
  | cons b x ih =>
    cases ks with
    | nil => simp
    | cons k ks =>
      simp only [List.zipWith_cons_cons, List.cons.injEq]
      exact ⟨by rw [out_byte, Nat.mod_eq_of_lt (hx b (by simp))],
        ih ks (fun a ha => hx a (by simp [ha]))⟩

theorem zipWith_out_byte_append (x y ks ls : List Nat) (h : ks.length = x.length) :
    List.zipWith out_byte (x ++ y) (ks ++ ls)
      = List.zipWith out_byte x ks ++ List.zipWith out_byte y ls :=
  List.zipWith_append _ _ _ _ _ h.symm

/-! ## The instance after `init` -/

theorem load_lt (p : List Nat) (off : Nat) : load p off < 2 ^ 32 := by
  unfold load
  omega

theorem init_pos (c : xchacha20) (key nonce : List Nat) : (init c key nonce).pos = 64 :=
  rfl

theorem init_state_wf (c : xchacha20) (key nonce : List Nat) : (init c key nonce).state.wf := by
  rw [Words.wf_iff]
  simp only [init, init_state]
  refine ⟨by decide, by decide, by decide, by decide, load_lt _ _, load_lt _ _, load_lt _ _,
    load_lt _ _, load_lt _ _, load_lt _ _, load_lt _ _, load_lt _ _, by decide, by decide,
    load_lt _ _, load_lt _ _⟩

theorem init_same_stream (c d : xchacha20) (key nonce : List Nat) :
    same_stream (init c key nonce) (init d key nonce) :=
  ⟨rfl, rfl, fun h => absurd rfl h⟩

/-! ## Sequences of calls -/

theorem run_congr {c d : xchacha20} (hw : c.state.wf) (hp : c.pos ≤ 64) (h : same_stream c d)
    (calls : List Call) :
    ∃ c1 d1 outs, run c calls = some (c1, outs) ∧ run d calls = some (d1, outs)
      ∧ same_stream c1 d1 := by
  induction calls generalizing c d with
  | nil => exact ⟨c, d, [], rfl, rfl, h⟩
  | cons call calls ih =>
    have hpd : d.pos ≤ 64 := h.2.1 ▸ hp
    cases call with
    | crypt input =>
      obtain ⟨c1, d1, outs, h1, h2, h3⟩ :=
        ih (iterate_advance_state_wf hw input.length) (iterate_advance_pos hp input.length)
          (iterate_advance_congr h input.length)
      refine ⟨c1, d1, List.zipWith out_byte input (keystream_bytes c input.length) :: outs,
        ?_, ?_, h3⟩
      · simp only [run, crypt_eq_out hp, h1]
      · simp only [run, crypt_eq_out hpd, h2, keystream_bytes_congr h]
    | discard n =>
      obtain ⟨c1, d1, outs, h1, h2, h3⟩ :=
        ih (discard_state_wf hw hp n) (discard_pos hw hp n) (discard_congr hw hp h n)
      exact ⟨c1, d1, outs, by simpa only [run] using h1, by simpa only [run] using h2, h3⟩

/-- A sequence of calls ends in an instance that continues the stream of a
single `discard` of the total length. -/
theorem run_discard {c : xchacha20} (hw : c.state.wf) (hp : c.pos ≤ 64) (calls : List Call) :
    ∃ d outs, run c calls = some (d, outs) ∧ same_stream d (discard c (stream_length calls)) := by
  induction calls generalizing c with
  | nil =>
    refine ⟨c, [], rfl, ?_⟩
    simpa [stream_length] using iterate_advance_discard hw hp 0
  | cons call calls ih =>
    have key : ∀ e : xchacha20, same_stream e (advance^[call.length] c) →
        same_stream (discard e (stream_length calls))
          (discard c (stream_length (call :: calls))) := by
      intro e he
      have hwe : e.state.wf := he.1 ▸ iterate_advance_state_wf hw call.length
      have hpe : e.pos ≤ 64 := he.2.1 ▸ iterate_advance_pos hp call.length
      have e1 : stream_length (call :: calls) = call.length + stream_length calls := by
        simp [stream_length]
      rw [e1]
      refine same_stream_trans (same_stream_symm (iterate_advance_discard hwe hpe _)) ?_
      refine same_stream_trans (iterate_advance_congr he _) ?_
      rw [← Function.iterate_add_apply, Nat.add_comm]
      exact iterate_advance_discard hw hp _
    cases call with
    | crypt input =>
      obtain ⟨d, outs, h1, h2⟩ :=
        ih (iterate_advance_state_wf hw input.length) (iterate_advance_pos hp input.length)
      refine ⟨d, List.zipWith out_byte input (keystream_bytes c input.length) :: outs,
        by simp only [run, crypt_eq_out hp, h1], ?_⟩
      exact same_stream_trans h2 (key _ (same_stream_refl _))
    | discard n =>
      obtain ⟨d, outs, h1, h2⟩ := ih (discard_state_wf hw hp n) (discard_pos hw hp n)
      refine ⟨d, outs, by simpa only [run] using h1, ?_⟩
      exact same_stream_trans h2 (key _ (same_stream_symm (iterate_advance_discard hw hp n)))

theorem run_crypts {c : xchacha20} (hp : c.pos ≤ 64) (chunks : List (List Nat)) :
    ∃ d outs, run c (chunks.map Call.crypt) = some (d, outs)
      ∧ crypt c chunks.flatten = some (d, outs.flatten) := by
  induction chunks generalizing c with
  | nil => exact ⟨c, [], rfl, rfl⟩
  | cons a chunks ih =>
    obtain ⟨d, outs, h1, h2⟩ := ih (iterate_advance_pos hp a.length)
    refine ⟨d, List.zipWith out_byte a (keystream_bytes c a.length) :: outs, ?_, ?_⟩
    · simp only [List.map_cons, run, crypt_eq_out hp, h1]
    · rw [crypt_eq_out (iterate_advance_pos hp a.length)] at h2
      simp only [Option.some.injEq, Prod.mk.injEq] at h2
      rw [List.flatten_cons, List.flatten_cons, crypt_eq_out hp, List.length_append,
        keystream_bytes_add, zipWith_out_byte_append _ _ _ _ (keystream_bytes_length _ _),
        Nat.add_comm, Function.iterate_add_apply, h2.1, h2.2]

/-! ## The keystream after `init` -/

theorem Words.get_eq_toList (m : Words) (q : Nat) (hq : q < 16) :
    m.get q = some (m.toList.getD q 0) := by
  interval_cases q <;> rfl

theorem store_getD (w r : Nat) (hr : r < 4) : (store w).getD r 0 = (w >>> (r * 8)) % 256 := by
  interval_cases r <;> simp [store, Nat.shiftRight_eq_div_pow]

theorem store_length (w : Nat) : (store w).length = 4 := rfl

theorem flatMap_store_getD (l : List Nat) (q r : Nat) (hr : r < 4) :
    (l.flatMap store).getD (4 * q + r) 0 = (store (l.getD q 0)).getD r 0 := by
  induction l generalizing q with
  | nil => interval_cases r <;> simp [store]
  | cons a l ih =>
    cases q with
    | zero =>
      simp only [List.flatMap_cons, Nat.mul_zero, Nat.zero_add, List.getD_cons_zero]
      rw [List.getD_append _ _ _ _ (by rw [store_length]; exact hr)]
    | succ q =>
      simp only [List.flatMap_cons, List.getD_cons_succ]
      rw [List.getD_append_right _ _ _ _ (by rw [store_length]; omega), store_length,
        show 4 * (q + 1) + r - 4 = 4 * q + r by omega]
      exact ih q

theorem add_state_toList (r s : Words) :
    (add_state r s).toList = List.zipWith (fun x a => (x + a) % 2 ^ 32) r.toList s.toList :=
  rfl

theorem serialise_block (s : Words) : serialise (block s) = (spec_block s).flatMap store :=
  rfl

theorem get_serialise (m : Words) (p : Nat) (hp : p < 64) :
    (m.get (p / 4)).map (fun w => (w >>> (p % 4 * 8)) % 256) = some ((serialise m).getD p 0) := by
  have e : p = 4 * (p / 4) + p % 4 := by omega
  rw [Words.get_eq_toList m (p / 4) (by omega)]
  conv_rhs => rw [e]
  rw [serialise, flatMap_store_getD _ _ _ (Nat.mod_lt _ (by omega)),
    store_getD _ _ (Nat.mod_lt _ (by omega))]
  rfl

theorem key_byte_discard {c : xchacha20} (hw : c.state.wf) (h64 : c.pos = 64) (i : Nat) :
    key_byte (discard c i)
      = some ((serialise (block (increment_count c.state (i / 64)))).getD (i % 64) 0) := by
  unfold key_byte
  rcases Nat.eq_zero_or_pos i with h0 | h0
  · subst h0
    rw [discard_within hw 0 (by omega), refill_eq_of_eq (by simpa using h64)]
    simpa [increment_count_zero hw] using get_serialise (block c.state) 0 (by omega)
  · rw [discard_beyond (by omega) i (by omega)]
    have e : c.pos + i - 64 = i := by omega
    rw [e]
    by_cases hr : i % 64 = 0
    · rw [if_pos hr, refill_eq_of_eq rfl, hr]
      exact get_serialise _ 0 (by omega)
    · rw [if_neg hr, refill_eq_of_ne (by simp only; omega)]
      exact get_serialise _ _ (Nat.mod_lt _ (by omega))

theorem load_take (l : List Nat) (n off : Nat) (h : off + 3 < n) :
    load (l.take n) off = load l off := by
  simp [load, List.getD_eq_getElem?_getD, List.getElem?_take,
    show off < n by omega, show off + 1 < n by omega, show off + 2 < n by omega, h]

theorem load_drop (l : List Nat) (n off : Nat) : load (l.drop n) off = load l (n + off) := by
  simp [load, List.getD_eq_getElem?_getD, Nat.add_assoc]

theorem derive_subkey_take (key nonce : List Nat) :
    derive_subkey key (nonce.take 16) = derive_subkey key nonce := by
  simp only [derive_subkey, derive_subkey_from, load_take _ 16 0 (by omega),
    load_take _ 16 4 (by omega), load_take _ 16 8 (by omega), load_take _ 16 12 (by omega)]

theorem increment_count_init (s : xchacha20) (key nonce : List Nat) (k : Nat) :
    increment_count (init s key nonce).state k = spec_matrix key nonce k := by
  apply Words.ext <;>
    simp only [increment_count_eq, init, init_state, spec_matrix, derive_subkey_take, load_drop]
  · omega
  · omega

/-! ## The counter after `init` -/

theorem discard_counter_pos {c : xchacha20} (hw : c.state.wf) (h64 : c.pos = 64) (n : Nat) :
    counter (discard c n).state = (counter c.state + (n + 63) / 64) % 2 ^ 64
      ∧ (discard c n).pos = if n = 0 then 64 else (n - 1) % 64 + 1 := by
  have hc : counter c.state < 2 ^ 64 := by
    rw [Words.wf_iff] at hw
    unfold counter
    omega
  rcases Nat.eq_zero_or_pos n with h0 | h0
  · subst h0
    rw [discard_within hw 0 (by omega)]
    refine ⟨?_, ?_⟩
    · show counter c.state = _
      omega
    · show c.pos + 0 = _
      simp [h64]
  · rw [discard_beyond (by omega) n (by omega)]
    have e : c.pos + n - 64 = n := by omega
    rw [e, if_neg (by omega : ¬ n = 0)]
    by_cases hr : n % 64 = 0
    · rw [if_pos hr]
      simp only [counter_increment_count]
      constructor <;> omega
    · rw [if_neg hr]
      simp only [counter_increment_count]
      constructor <;> omega

theorem counter_init (s : xchacha20) (key nonce : List Nat) :
    counter (init s key nonce).state = 0 := by
  simp [counter, init]

/-- After `init` and a sequence of calls of total length `T` the counter is
`ceil(T / 64) mod 2^64` and the cursor is 64 for `T = 0` and
`(T - 1) mod 64 + 1` otherwise. -/
theorem run_init_counter (s : xchacha20) (key nonce : List Nat) (calls : List Call) :
    ∃ d outs, run (init s key nonce) calls = some (d, outs)
      ∧ counter d.state = (stream_length calls + 63) / 64 % 2 ^ 64
      ∧ d.pos = if stream_length calls = 0 then 64 else (stream_length calls - 1) % 64 + 1 := by
  obtain ⟨d, outs, h1, h2⟩ :=
    run_discard (init_state_wf s key nonce) (Nat.le_refl 64) calls
  have h3 := discard_counter_pos (init_state_wf s key nonce) rfl (stream_length calls)
  rw [counter_init, Nat.zero_add] at h3
  exact ⟨d, outs, h1, by rw [h2.1]; exact h3.1, by rw [h2.2.1]; exact h3.2⟩

theorem stream_length_wrap_calls : stream_length wrap_calls = 2 ^ 70 - 63 := by
  decide

/-! ## The cursor range -/

theorem discard_within_pos {c : xchacha20} (n : Nat) (h : c.pos + n ≤ 64) :
    (discard c n).pos = c.pos + n := by
  by_cases hp : c.pos = 64
  · have hn : n = 0 := by omega
    subst hn
    simp [discard, hp]
  · have hm : min n ((18446744073709551680 - c.pos) % 18446744073709551616) = n := by
      omega
    have h0 : (n - n) / 64 = 0 := by simp
    have h256 : (c.pos + n) % 256 = c.pos + n := by omega
    simp [discard, hp, hm, h0, h256]

theorem discard_pos_range {c : xchacha20} (h1 : 0 < c.pos) (h2 : c.pos ≤ 64) (n : Nat) :
    0 < (discard c n).pos ∧ (discard c n).pos ≤ 64 := by
  rcases Nat.lt_or_ge 64 (c.pos + n) with h | h
  · rw [discard_beyond h2 n h]
    split
    · exact ⟨Nat.zero_lt_succ 63, Nat.le_refl 64⟩
    · simp only
      omega
  · rw [discard_within_pos n h]
    omega

theorem iterate_advance_pos_range {c : xchacha20} (h1 : 0 < c.pos) (h2 : c.pos ≤ 64) (n : Nat) :
    0 < (advance^[n] c).pos ∧ (advance^[n] c).pos ≤ 64 := by
  cases n with
  | zero => exact ⟨h1, h2⟩
  | succ n =>
    rw [Function.iterate_succ_apply']
    exact advance_pos (iterate_advance_pos h2 n)

/-! ## The frame of the working state -/

theorem frame_refl (s : Words) : frame s s := by
  simp [frame]

theorem frame_trans {s t u : Words} (h : frame s t) (k : frame t u) : frame s u := by
  simp only [frame] at h k ⊢
  omega

theorem increment_count_frame (s : Words) (n : Nat) : frame s (increment_count s n) := by
  simp [frame, increment_count_eq]

theorem update_frame (c : xchacha20) : frame c.state (update c).state :=
  increment_count_frame c.state 1

theorem advance_frame (c : xchacha20) : frame c.state (advance c).state := by
  by_cases hp : c.pos = 64
  · simp only [advance, refill_eq_of_eq hp]
    exact increment_count_frame c.state 1
  · simp only [advance, refill_eq_of_ne hp]
    exact frame_refl _

theorem discard_state (c : xchacha20) (n : Nat) :
    ∃ k, (discard c n).state = increment_count c.state k := by
  unfold discard
  split
  next c1 len hc =>
    have hs : c1.state = c.state := by
      split at hc <;> simp only [Prod.mk.injEq] at hc <;> rw [← hc.1]
    simp only
    split
    · exact ⟨len / 64 + 1, by simp only [update_eq, hs, increment_count_add]⟩
    · exact ⟨len / 64, by simp only [hs]⟩

theorem discard_frame (c : xchacha20) (n : Nat) : frame c.state (discard c n).state := by
  obtain ⟨k, hk⟩ := discard_state c n
  rw [hk]
  exact increment_count_frame c.state k

theorem crypt_frame (c : xchacha20) (x : List Nat) (d : xchacha20) (out : List Nat)
    (h : crypt c x = some (d, out)) : frame c.state d.state := by
  induction x generalizing c out with
  | nil =>
    simp only [crypt, Option.some.injEq, Prod.mk.injEq] at h
    rw [← h.1]
    exact frame_refl _
  | cons b rest ih =>
    rw [crypt_cons] at h
    cases hk : key_byte c with
    | none => simp [hk] at h
    | some k =>
      cases hr : crypt (advance c) rest with
      | none => simp [hk, hr] at h
      | some r =>
        obtain ⟨d1, out1⟩ := r
        simp only [hk, hr, Option.some.injEq, Prod.mk.injEq] at h
        rw [h.1] at hr
        exact frame_trans (advance_frame c) (ih (advance c) out1 hr)

/-! ## Seeks -/

theorem discard_discard {c : xchacha20} (hw : c.state.wf) (hp : c.pos ≤ 64) (a b : Nat) :
    same_stream (discard (discard c a) b) (discard c (a + b)) := by
  have ha := iterate_advance_discard hw hp a
  refine same_stream_trans (same_stream_symm
    (iterate_advance_discard (discard_state_wf hw hp a) (discard_pos hw hp a) b)) ?_
  refine same_stream_trans (iterate_advance_congr (same_stream_symm ha) b) ?_
  rw [← Function.iterate_add_apply, Nat.add_comm]
  exact iterate_advance_discard hw hp (a + b)

/-- A seek that generates no block: the cursor stops at `pos + N` or at the end
of the block, the keystream buffer is kept and the counter skips the blocks in
between. -/
theorem discard_no_block {c : xchacha20} (hp : c.pos ≤ 64) (n : Nat)
    (h : spec_discard_left c.pos n % 64 = 0) :
    (discard c n).pos = min (c.pos + n) 64
    ∧ (discard c n).keystream = c.keystream
    ∧ (discard c n).state = increment_count c.state (spec_discard_left c.pos n / 64) := by
  unfold spec_discard_left at h ⊢
  rcases Nat.lt_or_ge 64 (c.pos + n) with h1 | h1
  · have e : c.pos + n - 64 = (if c.pos < 64 then n - min n (64 - c.pos) else n) := by
      split <;> omega
    rw [discard_beyond hp n h1, e, if_pos h]
    exact ⟨by simp only; omega, rfl, rfl⟩
  · have h0 : (if c.pos < 64 then n - min n (64 - c.pos) else n) = 0 := by
      split <;> omega
    refine ⟨by rw [discard_within_pos n h1]; omega, ?_, ?_⟩
    · by_cases hp64 : c.pos = 64
      · simp [discard, hp64, show n = 0 by omega]
      · have hm : min n ((18446744073709551680 - c.pos) % 18446744073709551616) = n := by
          omega
        simp [discard, hp64, hm]
    · rw [h0]
      by_cases hp64 : c.pos = 64
      · simp [discard, hp64, show n = 0 by omega]
      · have hm : min n ((18446744073709551680 - c.pos) % 18446744073709551616) = n := by
          omega
        simp [discard, hp64, hm]

/-! ## The keystream buffer -/

theorem set_counter_pred {t : Words} (h12 : t.w12 < 2 ^ 32) (h13 : t.w13 < 2 ^ 32) :
    set_counter (increment_count t 1)
      ((counter (increment_count t 1) + 2 ^ 64 - 1) % 2 ^ 64) = t := by
  apply Words.ext <;> simp only [set_counter, increment_count_eq, counter] <;> omega

theorem increment_count_lt (s : Words) (n : Nat) :
    (increment_count s n).w12 < 2 ^ 32 ∧ (increment_count s n).w13 < 2 ^ 32 := by
  simp only [increment_count_eq]
  omega

/-! ## The reads of `crypt` -/

theorem crypt_reads_cons (c : xchacha20) (b : Nat) (rest : List Nat) :
    crypt_reads c (b :: rest) = (refill c).pos :: crypt_reads (advance c) rest :=
  rfl

theorem crypt_reads_length (c : xchacha20) (x : List Nat) :
    (crypt_reads c x).length = x.length := by
  induction x generalizing c with
  | nil => rfl
  | cons b rest ih => simp [crypt_reads_cons, ih]

theorem Words.get_eq_none_iff (m : Words) (i : Nat) : m.get i = none ↔ 16 ≤ i := by
  constructor
  · intro h
    by_contra hlt
    obtain ⟨w, hw⟩ := m.get_lt (i := i) (by omega)
    rw [hw] at h
    exact Option.noConfusion h
  · intro h
    obtain ⟨j, rfl⟩ := Nat.exists_eq_add_of_le h
    rw [Nat.add_comm]
    rfl

theorem key_byte_eq_none_iff (c : xchacha20) : key_byte c = none ↔ 16 ≤ (refill c).pos / 4 := by
  simp only [key_byte, Option.map_eq_none', Words.get_eq_none_iff]

theorem crypt_eq_none_iff (c : xchacha20) (x : List Nat) :
    crypt c x = none ↔ ∃ p ∈ crypt_reads c x, 16 ≤ p / 4 := by
  induction x generalizing c with
  | nil => simp [crypt, crypt_reads]
  | cons b rest ih =>
    rw [crypt_cons, crypt_reads_cons]
    simp only [List.mem_cons, exists_eq_or_imp, ← ih, ← key_byte_eq_none_iff]
    cases hk : key_byte c with
    | none => simp
    | some k =>
      cases hr : crypt (advance c) rest with
      | none => simp
      | some r => simp

theorem crypt_reads_lt {c : xchacha20} (hp : c.pos ≤ 64) (x : List Nat) :
    ∀ p ∈ crypt_reads c x, p < 64 := by
  induction x generalizing c with
  | nil => simp [crypt_reads]
  | cons b rest ih =>
    intro p hp1
    rw [crypt_reads_cons, List.mem_cons] at hp1
    rcases hp1 with h | h
    · rw [h]; exact refill_pos_lt hp
    · exact ih (advance_pos hp).2 p h

/-! ## The quarter round is invertible -/

theorem rotl_fixed_lt (x n : Nat) : rotl_fixed x n < 2 ^ 32 :=
  Nat.mod_lt _ (by decide)

/-- On a 32-bit word the two shifted parts of a rotation do not overlap, so
that their bitwise or is their sum. -/
theorem rotl_fixed_eq (x n : Nat) (hn : n ≤ 32) (hx : x < 2 ^ 32) :
    rotl_fixed x n = (2 ^ n * x + x / 2 ^ (32 - n)) % 2 ^ 32 := by
  have h : x / 2 ^ (32 - n) < 2 ^ n := by
    rw [Nat.div_lt_iff_lt_mul (by positivity), ← Nat.pow_add,
      show n + (32 - n) = 32 by omega]
    exact hx
  rw [rotl_fixed, Nat.shiftLeft_eq, Nat.shiftRight_eq_div_pow, Nat.mul_comm x,
    ← Nat.mul_add_lt_is_or h]

theorem rotl_fixed_7 {x : Nat} (hx : x < 2 ^ 32) :
    rotl_fixed x 7 = 128 * (x % 33554432) + x / 33554432 := by
  rw [rotl_fixed_eq x 7 (by decide) hx]
  norm_num at hx ⊢
  omega

theorem rotl_fixed_8 {x : Nat} (hx : x < 2 ^ 32) :
    rotl_fixed x 8 = 256 * (x % 16777216) + x / 16777216 := by
  rw [rotl_fixed_eq x 8 (by decide) hx]
  norm_num at hx ⊢
  omega

theorem rotl_fixed_12 {x : Nat} (hx : x < 2 ^ 32) :
    rotl_fixed x 12 = 4096 * (x % 1048576) + x / 1048576 := by
  rw [rotl_fixed_eq x 12 (by decide) hx]
  norm_num at hx ⊢
  omega

theorem rotl_fixed_16 {x : Nat} (hx : x < 2 ^ 32) :
    rotl_fixed x 16 = 65536 * (x % 65536) + x / 65536 := by
  rw [rotl_fixed_eq x 16 (by decide) hx]
  norm_num at hx ⊢
  omega

theorem rotl_fixed_20 {x : Nat} (hx : x < 2 ^ 32) :
    rotl_fixed x 20 = 1048576 * (x % 4096) + x / 4096 := by
  rw [rotl_fixed_eq x 20 (by decide) hx]
  norm_num at hx ⊢
  omega

theorem rotl_fixed_24 {x : Nat} (hx : x < 2 ^ 32) :
    rotl_fixed x 24 = 16777216 * (x % 256) + x / 256 := by
  rw [rotl_fixed_eq x 24 (by decide) hx]
  norm_num at hx ⊢
  omega

theorem rotl_fixed_25 {x : Nat} (hx : x < 2 ^ 32) :
    rotl_fixed x 25 = 33554432 * (x % 128) + x / 128 := by
  rw [rotl_fixed_eq x 25 (by decide) hx]
  norm_num at hx ⊢
  omega

theorem rotl_fixed_7_25 {x : Nat} (hx : x < 2 ^ 32) :
    rotl_fixed (rotl_fixed x 7) 25 = x := by
  rw [rotl_fixed_25 (rotl_fixed_lt x 7), rotl_fixed_7 hx]
  norm_num at hx
  omega

theorem rotl_fixed_25_7 {x : Nat} (hx : x < 2 ^ 32) :
    rotl_fixed (rotl_fixed x 25) 7 = x := by
  rw [rotl_fixed_7 (rotl_fixed_lt x 25), rotl_fixed_25 hx]
  norm_num at hx
  omega

theorem rotl_fixed_8_24 {x : Nat} (hx : x < 2 ^ 32) :
    rotl_fixed (rotl_fixed x 8) 24 = x := by
  rw [rotl_fixed_24 (rotl_fixed_lt x 8), rotl_fixed_8 hx]
  norm_num at hx
  omega

theorem rotl_fixed_24_8 {x : Nat} (hx : x < 2 ^ 32) :
    rotl_fixed (rotl_fixed x 24) 8 = x := by
  rw [rotl_fixed_8 (rotl_fixed_lt x 24), rotl_fixed_24 hx]
  norm_num at hx
  omega

theorem rotl_fixed_12_20 {x : Nat} (hx : x < 2 ^ 32) :
    rotl_fixed (rotl_fixed x 12) 20 = x := by
  rw [rotl_fixed_20 (rotl_fixed_lt x 12), rotl_fixed_12 hx]
  norm_num at hx
  omega

theorem rotl_fixed_20_12 {x : Nat} (hx : x < 2 ^ 32) :
    rotl_fixed (rotl_fixed x 20) 12 = x := by
  rw [rotl_fixed_12 (rotl_fixed_lt x 20), rotl_fixed_20 hx]
  norm_num at hx
  omega

theorem rotl_fixed_16_16 {x : Nat} (hx : x < 2 ^ 32) :
    rotl_fixed (rotl_fixed x 16) 16 = x := by
  rw [rotl_fixed_16 (rotl_fixed_lt x 16), rotl_fixed_16 hx]
  norm_num at hx
  omega

theorem xor_lt_word {a b : Nat} (ha : a < 2 ^ 32) (hb : b < 2 ^ 32) : a ^^^ b < 2 ^ 32 :=
  Nat.xor_lt_two_pow ha hb

theorem xor_xor_cancel (a b : Nat) : (a ^^^ b) ^^^ b = a := by
  rw [Nat.xor_assoc, Nat.xor_self, Nat.xor_zero]

theorem add_sub_word {a b : Nat} (ha : a < 2 ^ 32) (hb : b < 2 ^ 32) :
    ((a + b) % 2 ^ 32 + 2 ^ 32 - b) % 2 ^ 32 = a := by
  omega

theorem sub_add_word {a b : Nat} (ha : a < 2 ^ 32) (hb : b < 2 ^ 32) :
    ((a + 2 ^ 32 - b) % 2 ^ 32 + b) % 2 ^ 32 = a := by
  omega

theorem mod_word_lt (x : Nat) : x % 2 ^ 32 < 2 ^ 32 :=
  Nat.mod_lt _ (by decide)

theorem CHACHA20_QR_lt (a b c d : Nat) :
    (CHACHA20_QR a b c d).1 < 2 ^ 32 ∧ (CHACHA20_QR a b c d).2.1 < 2 ^ 32
      ∧ (CHACHA20_QR a b c d).2.2.1 < 2 ^ 32 ∧ (CHACHA20_QR a b c d).2.2.2 < 2 ^ 32 :=
  ⟨mod_word_lt _, rotl_fixed_lt _ _, mod_word_lt _, rotl_fixed_lt _ _⟩

theorem CHACHA20_QR_inv_lt (a b c d : Nat) :
    (CHACHA20_QR_inv a b c d).1 < 2 ^ 32 ∧ (CHACHA20_QR_inv a b c d).2.1 < 2 ^ 32
      ∧ (CHACHA20_QR_inv a b c d).2.2.1 < 2 ^ 32 ∧ (CHACHA20_QR_inv a b c d).2.2.2 < 2 ^ 32 :=
  ⟨mod_word_lt _, xor_lt_word (rotl_fixed_lt _ _) (mod_word_lt _), mod_word_lt _,
    xor_lt_word (rotl_fixed_lt _ _) (mod_word_lt _)⟩

/-- The inverse quarter round undoes the quarter round on 32-bit words. -/
theorem CHACHA20_QR_inv_QR {a b c d : Nat} (ha : a < 2 ^ 32) (hb : b < 2 ^ 32)
    (hc : c < 2 ^ 32) (hd : d < 2 ^ 32) :
    CHACHA20_QR_inv (CHACHA20_QR a b c d).1 (CHACHA20_QR a b c d).2.1
      (CHACHA20_QR a b c d).2.2.1 (CHACHA20_QR a b c d).2.2.2 = (a, b, c, d) := by
  simp only [CHACHA20_QR, CHACHA20_QR_inv]
  generalize ha1 : (a + b) % 2 ^ 32 = a1
  have ha1l : a1 < 2 ^ 32 := ha1 ▸ mod_word_lt _
  generalize hd1 : rotl_fixed (d ^^^ a1) 16 = d1
  have hd1l : d1 < 2 ^ 32 := hd1 ▸ rotl_fixed_lt _ _
  generalize hc1 : (c + d1) % 2 ^ 32 = c1
  have hc1l : c1 < 2 ^ 32 := hc1 ▸ mod_word_lt _
  generalize hb1 : rotl_fixed (b ^^^ c1) 12 = b1
  have hb1l : b1 < 2 ^ 32 := hb1 ▸ rotl_fixed_lt _ _
  generalize ha2 : (a1 + b1) % 2 ^ 32 = a2
  have ha2l : a2 < 2 ^ 32 := ha2 ▸ mod_word_lt _
  generalize hd2 : rotl_fixed (d1 ^^^ a2) 8 = d2
  have hd2l : d2 < 2 ^ 32 := hd2 ▸ rotl_fixed_lt _ _
  generalize hc2 : (c1 + d2) % 2 ^ 32 = c2
  have hc2l : c2 < 2 ^ 32 := hc2 ▸ mod_word_lt _
  rw [rotl_fixed_7_25 (xor_lt_word hb1l hc2l), xor_xor_cancel, ← hc2, add_sub_word hc1l hd2l,
    ← hd2, rotl_fixed_8_24 (xor_lt_word hd1l ha2l), xor_xor_cancel, ← ha2,
    add_sub_word ha1l hb1l, ← hb1, rotl_fixed_12_20 (xor_lt_word hb hc1l), xor_xor_cancel,
    ← hc1, add_sub_word hc hd1l, ← hd1, rotl_fixed_16_16 (xor_lt_word hd ha1l), xor_xor_cancel,
    ← ha1, add_sub_word ha hb]

/-- The quarter round undoes the inverse quarter round on 32-bit words. -/
theorem CHACHA20_QR_QR_inv {a b c d : Nat} (ha : a < 2 ^ 32) (hb : b < 2 ^ 32)
    (hc : c < 2 ^ 32) (hd : d < 2 ^ 32) :
    CHACHA20_QR (CHACHA20_QR_inv a b c d).1 (CHACHA20_QR_inv a b c d).2.1
      (CHACHA20_QR_inv a b c d).2.2.1 (CHACHA20_QR_inv a b c d).2.2.2 = (a, b, c, d) := by
  simp only [CHACHA20_QR, CHACHA20_QR_inv]
  generalize hb1 : rotl_fixed b 25 ^^^ c = b1
  have hb1l : b1 < 2 ^ 32 := hb1 ▸ xor_lt_word (rotl_fixed_lt _ _) hc
  generalize hc1 : (c + 2 ^ 32 - d) % 2 ^ 32 = c1
  have hc1l : c1 < 2 ^ 32 := hc1 ▸ mod_word_lt _
  generalize hd1 : rotl_fixed d 24 ^^^ a = d1
  have hd1l : d1 < 2 ^ 32 := hd1 ▸ xor_lt_word (rotl_fixed_lt _ _) ha
  generalize ha1 : (a + 2 ^ 32 - b1) % 2 ^ 32 = a1
  have ha1l : a1 < 2 ^ 32 := ha1 ▸ mod_word_lt _
  generalize hb0 : rotl_fixed b1 20 ^^^ c1 = b0
  have hb0l : b0 < 2 ^ 32 := hb0 ▸ xor_lt_word (rotl_fixed_lt _ _) hc1l
  generalize hc0 : (c1 + 2 ^ 32 - d1) % 2 ^ 32 = c0
  have hc0l : c0 < 2 ^ 32 := hc0 ▸ mod_word_lt _
  generalize hd0 : rotl_fixed d1 16 ^^^ a1 = d0
  have hd0l : d0 < 2 ^ 32 := hd0 ▸ xor_lt_word (rotl_fixed_lt _ _) ha1l
  rw [sub_add_word ha1l hb0l, ← hd0, xor_xor_cancel, rotl_fixed_16_16 hd1l, ← hc0,
    sub_add_word hc1l hd1l, ← hb0, xor_xor_cancel, rotl_fixed_20_12 hb1l, ← ha1,
    sub_add_word ha hb1l, ← hd1, xor_xor_cancel, rotl_fixed_24_8 hd, ← hc1,
    sub_add_word hc hd, ← hb1, xor_xor_cancel, rotl_fixed_25_7 hb]

/-! ## The block permutation is invertible -/

theorem run_rounds_body_eq (k : Words) :
    run_rounds_body k = diagonal_round (column_round k) :=
  rfl

theorem run_rounds_body_inv_eq (k : Words) :
    run_rounds_body_inv k = column_round_inv (diagonal_round_inv k) :=
  rfl

theorem column_round_wf (k : Words) : (column_round k).wf := by
  rw [Words.wf_iff]
  have h0 := CHACHA20_QR_lt k.w0 k.w4 k.w8 k.w12
  have h1 := CHACHA20_QR_lt k.w1 k.w5 k.w9 k.w13
  have h2 := CHACHA20_QR_lt k.w2 k.w6 k.w10 k.w14
  have h3 := CHACHA20_QR_lt k.w3 k.w7 k.w11 k.w15
  exact ⟨h0.1, h1.1, h2.1, h3.1, h0.2.1, h1.2.1, h2.2.1, h3.2.1, h0.2.2.1, h1.2.2.1, h2.2.2.1,
    h3.2.2.1, h0.2.2.2, h1.2.2.2, h2.2.2.2, h3.2.2.2⟩

theorem diagonal_round_wf (k : Words) : (diagonal_round k).wf := by
  rw [Words.wf_iff]
  have h0 := CHACHA20_QR_lt k.w0 k.w5 k.w10 k.w15
  have h1 := CHACHA20_QR_lt k.w1 k.w6 k.w11 k.w12
  have h2 := CHACHA20_QR_lt k.w2 k.w7 k.w8 k.w13
  have h3 := CHACHA20_QR_lt k.w3 k.w4 k.w9 k.w14
  exact ⟨h0.1, h1.1, h2.1, h3.1, h3.2.1, h0.2.1, h1.2.1, h2.2.1, h2.2.2.1, h3.2.2.1, h0.2.2.1,
    h1.2.2.1, h1.2.2.2, h2.2.2.2, h3.2.2.2, h0.2.2.2⟩

theorem column_round_inv_wf (k : Words) : (column_round_inv k).wf := by
  rw [Words.wf_iff]
  have h0 := CHACHA20_QR_inv_lt k.w0 k.w4 k.w8 k.w12
  have h1 := CHACHA20_QR_inv_lt k.w1 k.w5 k.w9 k.w13
  have h2 := CHACHA20_QR_inv_lt k.w2 k.w6 k.w10 k.w14
  have h3 := CHACHA20_QR_inv_lt k.w3 k.w7 k.w11 k.w15
  exact ⟨h0.1, h1.1, h2.1, h3.1, h0.2.1, h1.2.1, h2.2.1, h3.2.1, h0.2.2.1, h1.2.2.1, h2.2.2.1,
    h3.2.2.1, h0.2.2.2, h1.2.2.2, h2.2.2.2, h3.2.2.2⟩

theorem diagonal_round_inv_wf (k : Words) : (diagonal_round_inv k).wf := by
  rw [Words.wf_iff]
  have h0 := CHACHA20_QR_inv_lt k.w0 k.w5 k.w10 k.w15
  have h1 := CHACHA20_QR_inv_lt k.w1 k.w6 k.w11 k.w12
  have h2 := CHACHA20_QR_inv_lt k.w2 k.w7 k.w8 k.w13
  have h3 := CHACHA20_QR_inv_lt k.w3 k.w4 k.w9 k.w14
  exact ⟨h0.1, h1.1, h2.1, h3.1, h3.2.1, h0.2.1, h1.2.1, h2.2.1, h2.2.2.1, h3.2.2.1, h0.2.2.1,
    h1.2.2.1, h1.2.2.2, h2.2.2.2, h3.2.2.2, h0.2.2.2⟩

theorem column_round_inv_column {k : Words} (h : k.wf) :
    column_round_inv (column_round k) = k := by
  rw [Words.wf_iff] at h
  obtain ⟨h0, h1, h2, h3, h4, h5, h6, h7, h8, h9, h10, h11, h12, h13, h14, h15⟩ := h
  simp only [column_round_inv, column_round, CHACHA20_QR_inv_QR h0 h4 h8 h12,
    CHACHA20_QR_inv_QR h1 h5 h9 h13, CHACHA20_QR_inv_QR h2 h6 h10 h14,
    CHACHA20_QR_inv_QR h3 h7 h11 h15]

theorem column_round_column_inv {k : Words} (h : k.wf) :
    column_round (column_round_inv k) = k := by
  rw [Words.wf_iff] at h
  obtain ⟨h0, h1, h2, h3, h4, h5, h6, h7, h8, h9, h10, h11, h12, h13, h14, h15⟩ := h
  simp only [column_round_inv, column_round, CHACHA20_QR_QR_inv h0 h4 h8 h12,
    CHACHA20_QR_QR_inv h1 h5 h9 h13, CHACHA20_QR_QR_inv h2 h6 h10 h14,
    CHACHA20_QR_QR_inv h3 h7 h11 h15]

theorem diagonal_round_inv_diagonal {k : Words} (h : k.wf) :
    diagonal_round_inv (diagonal_round k) = k := by
  rw [Words.wf_iff] at h
  obtain ⟨h0, h1, h2, h3, h4, h5, h6, h7, h8, h9, h10, h11, h12, h13, h14, h15⟩ := h
  simp only [diagonal_round_inv, diagonal_round, CHACHA20_QR_inv_QR h0 h5 h10 h15,
    CHACHA20_QR_inv_QR h1 h6 h11 h12, CHACHA20_QR_inv_QR h2 h7 h8 h13,
    CHACHA20_QR_inv_QR h3 h4 h9 h14]

theorem diagonal_round_diagonal_inv {k : Words} (h : k.wf) :
    diagonal_round (diagonal_round_inv k) = k := by
  rw [Words.wf_iff] at h
  obtain ⟨h0, h1, h2, h3, h4, h5, h6, h7, h8, h9, h10, h11, h12, h13, h14, h15⟩ := h
  simp only [diagonal_round_inv, diagonal_round, CHACHA20_QR_QR_inv h0 h5 h10 h15,
    CHACHA20_QR_QR_inv h1 h6 h11 h12, CHACHA20_QR_QR_inv h2 h7 h8 h13,
    CHACHA20_QR_QR_inv h3 h4 h9 h14]

theorem run_rounds_body_wf (k : Words) : (run_rounds_body k).wf := by
  rw [run_rounds_body_eq]
  exact diagonal_round_wf _

theorem run_rounds_body_inv_wf (k : Words) : (run_rounds_body_inv k).wf := by
  rw [run_rounds_body_inv_eq]
  exact column_round_inv_wf _

theorem run_rounds_body_inv_body {k : Words} (h : k.wf) :
    run_rounds_body_inv (run_rounds_body k) = k := by
  rw [run_rounds_body_eq, run_rounds_body_inv_eq,
    diagonal_round_inv_diagonal (column_round_wf k), column_round_inv_column h]

theorem run_rounds_body_body_inv {k : Words} (h : k.wf) :
    run_rounds_body (run_rounds_body_inv k) = k := by
  rw [run_rounds_body_eq, run_rounds_body_inv_eq,
    column_round_column_inv (diagonal_round_inv_wf k), diagonal_round_diagonal_inv h]

theorem iterate_run_rounds_body_wf {k : Words} (h : k.wf) (n : Nat) :
    (run_rounds_body^[n] k).wf := by
  cases n with
  | zero => exact h
  | succ n => rw [Function.iterate_succ_apply']; exact run_rounds_body_wf _

theorem iterate_run_rounds_body_inv_wf {k : Words} (h : k.wf) (n : Nat) :
    (run_rounds_body_inv^[n] k).wf := by
  cases n with
  | zero => exact h
  | succ n => rw [Function.iterate_succ_apply']; exact run_rounds_body_inv_wf _

theorem iterate_inv_iterate {k : Words} (h : k.wf) (n : Nat) :
    run_rounds_body_inv^[n] (run_rounds_body^[n] k) = k := by
  induction n with
  | zero => rfl
  | succ n ih =>
    rw [Function.iterate_succ_apply, Function.iterate_succ_apply',
      run_rounds_body_inv_body (iterate_run_rounds_body_wf h n), ih]

theorem iterate_iterate_inv {k : Words} (h : k.wf) (n : Nat) :
    run_rounds_body^[n] (run_rounds_body_inv^[n] k) = k := by
  induction n with
  | zero => rfl
  | succ n ih =>
    rw [Function.iterate_succ_apply, Function.iterate_succ_apply',
      run_rounds_body_body_inv (iterate_run_rounds_body_inv_wf h n), ih]

theorem run_rounds_wf {k : Words} (h : k.wf) : (run_rounds k).wf :=
  iterate_run_rounds_body_wf h 10

theorem run_rounds_inv_wf {k : Words} (h : k.wf) : (run_rounds_inv k).wf :=
  iterate_run_rounds_body_inv_wf h 10

theorem run_rounds_inv_run_rounds {k : Words} (h : k.wf) : run_rounds_inv (run_rounds k) = k :=
  iterate_inv_iterate h 10

theorem run_rounds_run_rounds_inv {k : Words} (h : k.wf) : run_rounds (run_rounds_inv k) = k :=
  iterate_iterate_inv h 10

/-! ## The claims -/

/-- C1 (the output of `crypt` after `init`): for every key, nonce and input of
bytes, `crypt` called right after `init(key, nonce)` returns an output of the
length of the input with `out[i] = in[i] XOR K[i]`, where `K[i]` is the byte
`i mod 64` of the little-endian serialisation of the sixteen words
`(run_rounds(S_k)[j] + S_k[j]) mod 2^32`, `k = i / 64`, and `S_k` holds the
constants, the subkey derived from the key and the first 16 nonce bytes, the
counter `k` and the last 8 nonce bytes. -/
theorem crypt_after_init (s : xchacha20) (key nonce input : List Nat) (hbytes : bytes input) :
    ∃ d out, crypt (init s key nonce) input = some (d, out) ∧ out.length = input.length
      ∧ ∀ i, i < input.length → out.getD i 0 = input.getD i 0 ^^^ spec_keystream key nonce i := by
  have hl := keystream_bytes_length (init s key nonce) input.length
  have hw := init_state_wf s key nonce
  refine ⟨_, _, crypt_eq_out (c := init s key nonce) (Nat.le_refl 64) input,
    zipWith_out_byte_length _ _ hl, fun i hi => ?_⟩
  have hb : input.getD i 0 < 256 := by
    rw [List.getD_eq_getElem _ _ hi]; exact hbytes _ (List.getElem_mem hi)
  rw [zipWith_out_byte_getD _ _ hl i hi, keystream_bytes_getD _ _ _ hi,
    key_byte_congr (iterate_advance_discard hw (Nat.le_refl 64) i),
    key_byte_discard hw rfl i, increment_count_init, Option.getD_some, out_byte,
    Nat.mod_eq_of_lt hb, serialise_block]
  rfl

/-- C2 (self-inverse): for every key, nonce and plaintext `p` of bytes,
`crypt(p)` on a cipher just initialised with `init(key, nonce)` returns a
ciphertext `ct` of the length of `p`, and `crypt(ct)` on a cipher again
initialised with `init(key, nonce)`, whatever it held before, returns exactly
`p`. -/
theorem crypt_self_inverse (s1 s2 : xchacha20) (key nonce p : List Nat) (hbytes : bytes p) :
    ∃ c1 ct c2, crypt (init s1 key nonce) p = some (c1, ct) ∧ ct.length = p.length
      ∧ crypt (init s2 key nonce) ct = some (c2, p) := by
  have hl := keystream_bytes_length (init s1 key nonce) p.length
  refine ⟨_, _, advance^[p.length] (init s2 key nonce),
    crypt_eq_out (c := init s1 key nonce) (Nat.le_refl 64) p,
    zipWith_out_byte_length _ _ hl, ?_⟩
  rw [crypt_eq_out (c := init s2 key nonce) (Nat.le_refl 64), zipWith_out_byte_length _ _ hl,
    keystream_bytes_congr (init_same_stream s2 s1 key nonce),
    zipWith_out_byte_twice _ _ hbytes (keystream_bytes_lt _ _), zipWith_fst _ _ hl]

/-- C3 (discard equivalence): for every cipher state with `pos <= 64` (its
state words being 32-bit words, as their type says), every input `x` of `N`
bytes and every input `rest`, `crypt(rest)` after `discard(N)`
returns the last `|rest|` bytes of what `crypt(x ++ rest)` returns from the same
starting state, which is also what `crypt(rest)` returns after `crypt(x)`, and
the two final states continue the same stream.  The same holds after any
sequence of `crypt` and `discard` calls of total length `N` in the place of
`discard(N)`, such as the three bytes of `crypt` and `discard(129)` of the test
of the source. -/
theorem discard_equivalence (c : xchacha20) (x rest : List Nat)
    (hw : c.state.wf) (hp : c.pos ≤ 64) :
    (∃ c1 o1 c2 o2 c3 o3 c4,
      crypt (discard c x.length) rest = some (c1, o1)
      ∧ crypt c (x ++ rest) = some (c2, o2)
      ∧ o1 = o2.drop x.length ∧ o1.length = rest.length
      ∧ crypt c x = some (c3, o3) ∧ crypt c3 rest = some (c4, o1)
      ∧ same_stream c1 c2)
    ∧ ∀ calls : List Call, stream_length calls = x.length →
        ∃ d outs c1 c2 o2, run c calls = some (d, outs)
          ∧ crypt c (x ++ rest) = some (c2, o2)
          ∧ crypt d rest = some (c1, o2.drop x.length) := by
  have hd := iterate_advance_discard hw hp x.length
  have hpx := iterate_advance_pos hp x.length
  have hdrop : List.drop x.length
      (List.zipWith out_byte (x ++ rest) (keystream_bytes c (x ++ rest).length))
      = List.zipWith out_byte rest (keystream_bytes (advance^[x.length] c) rest.length) := by
    rw [List.length_append, keystream_bytes_add,
      zipWith_out_byte_append _ _ _ _ (keystream_bytes_length _ _),
      List.drop_left' (zipWith_out_byte_length _ _ (keystream_bytes_length _ _))]
  refine ⟨⟨_, _, _, _, _, _, advance^[rest.length] (advance^[x.length] c),
    crypt_eq_out (discard_pos hw hp x.length) rest,
    crypt_eq_out hp (x ++ rest), ?_, ?_, crypt_eq_out hp x, ?_, ?_⟩, ?_⟩
  · rw [hdrop, keystream_bytes_congr hd]
  · exact zipWith_out_byte_length _ _ (keystream_bytes_length _ _)
  · rw [crypt_eq_out hpx, keystream_bytes_congr hd]
  · rw [List.length_append, Nat.add_comm, Function.iterate_add_apply]
    exact same_stream_symm (iterate_advance_congr hd rest.length)
  · intro calls hT
    obtain ⟨d, outs, h1, h2⟩ := run_discard hw hp calls
    rw [hT] at h2
    have h3 := same_stream_trans h2 (same_stream_symm hd)
    refine ⟨d, outs, advance^[rest.length] d, _, _, h1, crypt_eq_out hp (x ++ rest), ?_⟩
    rw [crypt_eq_out (h3.2.1 ▸ hpx), hdrop, keystream_bytes_congr h3]

/-- C4 (chunking independence): for every cipher state with `pos <= 64` and all
inputs `a` and `b`, `crypt(a ++ b)` returns the output of `crypt(a)` followed by
the output of the next `crypt(b)`, and both ways reach the same cipher state
(state, keystream, pos); more generally one `crypt` call on the concatenation
of any chunks returns the concatenation of the outputs of one `crypt` call per
chunk and reaches the same cipher state. -/
theorem crypt_chunking (c : xchacha20) (a b : List Nat) (hp : c.pos ≤ 64) :
    (∃ c1 oa c2 ob, crypt c a = some (c1, oa) ∧ crypt c1 b = some (c2, ob)
      ∧ crypt c (a ++ b) = some (c2, oa ++ ob))
    ∧ ∀ chunks : List (List Nat), ∃ d outs, run c (chunks.map Call.crypt) = some (d, outs)
        ∧ crypt c chunks.flatten = some (d, outs.flatten) := by
  refine ⟨⟨_, _, _, _, crypt_eq_out hp a, crypt_eq_out (iterate_advance_pos hp a.length) b, ?_⟩,
    run_crypts hp⟩
  rw [crypt_eq_out hp, List.length_append, keystream_bytes_add,
    zipWith_out_byte_append _ _ _ _ (keystream_bytes_length _ _), Nat.add_comm,
    Function.iterate_add_apply]

/-- C9 (the keystream does not depend on the data): for every cipher state with
`pos <= 64` and two inputs `x` and `y` of bytes of the same length, `crypt(x)`
and `crypt(y)` reach the same cipher state and
`out_x[i] XOR x[i] = out_y[i] XOR y[i]` for every `i`; `crypt(x)` is `x` XOR the
output of `crypt` on as many zero bytes. -/
theorem crypt_data_independent (c : xchacha20) (x y : List Nat) (hp : c.pos ≤ 64)
    (hlen : x.length = y.length) (hx : bytes x) (hy : bytes y) :
    ∃ d ox oy oz, crypt c x = some (d, ox) ∧ crypt c y = some (d, oy)
      ∧ crypt c (List.replicate x.length 0) = some (d, oz)
      ∧ ox.length = x.length ∧ oy.length = x.length
      ∧ (∀ i, i < x.length → ox.getD i 0 ^^^ x.getD i 0 = oy.getD i 0 ^^^ y.getD i 0)
      ∧ ox = List.zipWith (fun b k => b ^^^ k) x oz := by
  have hl := keystream_bytes_length c x.length
  refine ⟨advance^[x.length] c, List.zipWith out_byte x (keystream_bytes c x.length),
    List.zipWith out_byte y (keystream_bytes c x.length), keystream_bytes c x.length,
    crypt_eq_out hp x, ?_, ?_, zipWith_out_byte_length _ _ hl,
    (zipWith_out_byte_length _ _ (hl.trans hlen)).trans hlen.symm, ?_,
    zipWith_out_byte_eq_xor _ _ hx⟩
  · rw [crypt_eq_out hp y, hlen]
  · rw [crypt_eq_out hp, List.length_replicate, zipWith_out_byte_zero _ _ hl]
  · intro i hi
    have hxi : x.getD i 0 < 256 := by
      rw [List.getD_eq_getElem _ _ hi]; exact hx _ (List.getElem_mem hi)
    have hyi : y.getD i 0 < 256 := by
      rw [List.getD_eq_getElem _ _ (hlen ▸ hi)]; exact hy _ (List.getElem_mem (hlen ▸ hi))
    rw [zipWith_out_byte_getD _ _ hl i hi,
      zipWith_out_byte_getD _ _ (hl.trans hlen) i (hlen ▸ hi), out_byte_xor hxi,
      out_byte_xor hyi]

/-- C10 (re-initialisation gives a fresh stream): for every key and nonce and
any two prior instances `s1` and `s2`, `init(key, nonce)` yields the same state
words and the same `pos` on both, keeps the keystream buffer of each, and every
later sequence of `crypt` and `discard` calls returns, with the same outputs on
both and ends in the same state words and `pos`. -/
theorem init_fresh_stream (s1 s2 : xchacha20) (key nonce : List Nat) :
    (init s1 key nonce).state = (init s2 key nonce).state
    ∧ (init s1 key nonce).pos = (init s2 key nonce).pos
    ∧ (init s1 key nonce).keystream = s1.keystream
    ∧ (init s2 key nonce).keystream = s2.keystream
    ∧ ∀ calls : List Call, ∃ d1 d2 outs,
        run (init s1 key nonce) calls = some (d1, outs)
        ∧ run (init s2 key nonce) calls = some (d2, outs)
        ∧ d1.state = d2.state ∧ d1.pos = d2.pos := by
  refine ⟨rfl, rfl, rfl, rfl, fun calls => ?_⟩
  obtain ⟨d1, d2, outs, h1, h2, h3⟩ :=
    run_congr (init_state_wf s1 key nonce) (Nat.le_refl 64)
      (init_same_stream s1 s2 key nonce) calls
  exact ⟨d1, d2, outs, h1, h2, h3.1, h3.2.1⟩

/-- C5 (HChaCha20 known answer): `derive_subkey` on the key bytes `00 .. 1f`
and the 16-byte nonce `00 00 00 09 00 00 00 4a 00 00 00 00 31 41 59 27` returns
the 32 bytes `82 41 3b 42 .. 26 d3 ec dc` of the test of the source. -/
theorem derive_subkey_known_answer :
    derive_subkey
      [0x00, 0x01, 0x02, 0x03, 0x04, 0x05, 0x06, 0x07, 0x08, 0x09, 0x0a, 0x0b, 0x0c, 0x0d, 0x0e,
        0x0f, 0x10, 0x11, 0x12, 0x13, 0x14, 0x15, 0x16, 0x17, 0x18, 0x19, 0x1a, 0x1b, 0x1c, 0x1d,
        0x1e, 0x1f]
      [0x00, 0x00, 0x00, 0x09, 0x00, 0x00, 0x00, 0x4a, 0x00, 0x00, 0x00, 0x00, 0x31, 0x41, 0x59,
        0x27]
    = [0x82, 0x41, 0x3b, 0x42, 0x27, 0xb2, 0x7b, 0xfe, 0xd3, 0x0e, 0x42, 0x50, 0x8a, 0x87, 0x7d,
        0x73, 0xa0, 0xf9, 0xe4, 0xd5, 0x8a, 0x74, 0xa8, 0x53, 0xc1, 0x2e, 0xc4, 0x13, 0x26, 0xd3,
        0xec, 0xdc] := by
  decide!

/-- C6 (HChaCha20): for every key and 16-byte nonce, `derive_subkey` returns
the little-endian serialisation of the words 0, 1, 2, 3, 12, 13, 14, 15, in this
order, of `run_rounds(M)`, where `M` holds the constants, the key words and the
nonce words; nothing is added to the permuted matrix, and the content of the
local array before `init_state` plays no role. -/
theorem derive_subkey_spec (junk : Words) (key nonce16 : List Nat) :
    derive_subkey_from junk key nonce16
        = spec_subkey (run_rounds (spec_hchacha_matrix key nonce16))
      ∧ derive_subkey key nonce16
        = spec_subkey (run_rounds (spec_hchacha_matrix key nonce16)) := by
  constructor <;>
    simp [derive_subkey, derive_subkey_from, spec_subkey, spec_hchacha_matrix, init_state]

/-- C7 (the state after `init`): for every key, nonce and prior instance, after
`init(key, nonce)` the words 0-3 are the constants, the words 4-11 the
little-endian words of `derive_subkey(key, first 16 bytes of nonce)`, the words
12 and 13 zero, the words 14 and 15 the little-endian words of the nonce bytes
16..19 and 20..23, and `pos = 64`. -/
theorem init_spec (s : xchacha20) (key nonce : List Nat) :
    (init s key nonce).state =
      { w0 := 0x61707865, w1 := 0x3320646e, w2 := 0x79622d32, w3 := 0x6b206574
        w4 := load (derive_subkey key (nonce.take 16)) 0
        w5 := load (derive_subkey key (nonce.take 16)) 4
        w6 := load (derive_subkey key (nonce.take 16)) 8
        w7 := load (derive_subkey key (nonce.take 16)) 12
        w8 := load (derive_subkey key (nonce.take 16)) 16
        w9 := load (derive_subkey key (nonce.take 16)) 20
        w10 := load (derive_subkey key (nonce.take 16)) 24
        w11 := load (derive_subkey key (nonce.take 16)) 28
        w12 := 0, w13 := 0
        w14 := load ((nonce.drop 16).take 4) 0
        w15 := load ((nonce.drop 20).take 4) 0 }
      ∧ (init s key nonce).pos = 64 := by
  refine ⟨?_, rfl⟩
  simp only [init, init_state, derive_subkey_take, load_take _ 4 0 (by omega), load_drop]

/-- C8, as amended (the counter tracks the stream position): after `init`
and any sequence of `crypt` and `discard` calls of total length `T`, the calls
return and the 64-bit counter equals `ceil(T / 64) mod 2^64`; and
`64 * counter + pos - 64 = T` whenever `T <= 2^70 - 64`, that is whenever
`ceil(T / 64) < 2^64`. -/
theorem counter_position_amended (s : xchacha20) (key nonce : List Nat) (calls : List Call) :
    ∃ d outs, run (init s key nonce) calls = some (d, outs)
      ∧ counter d.state = (stream_length calls + 63) / 64 % 2 ^ 64
      ∧ (stream_length calls ≤ 2 ^ 70 - 64 →
          64 * counter d.state + d.pos - 64 = stream_length calls
          ∧ 64 * counter d.state + d.pos = stream_length calls + 64) := by
  obtain ⟨d, outs, h1, h2, h3⟩ := run_init_counter s key nonce calls
  refine ⟨d, outs, h1, h2, fun hT => ?_⟩
  rw [h2, h3]
  split <;> omega

/-- C8, counterexample: 64 seeks of `2^64 - 1` bytes and one of one byte after
`init` have the total length `T = 2^70 - 63 < 2^70`, and leave the counter at 0
(it has wrapped) and `pos = 1`, so that `64 * counter + pos - 64` is not `T`,
neither with the truncated subtraction nor in the integers. -/
theorem counter_position_counterexample :
    ∃ d outs, run (init zero_instance (List.replicate 32 0) (List.replicate 24 0)) wrap_calls
        = some (d, outs)
      ∧ stream_length wrap_calls < 2 ^ 70
      ∧ counter d.state = 0 ∧ d.pos = 1
      ∧ ¬ (64 * counter d.state + d.pos - 64 = stream_length wrap_calls)
      ∧ ¬ (64 * (counter d.state : Int) + d.pos - 64 = stream_length wrap_calls) := by
  obtain ⟨d, outs, h1, h2, h3⟩ :=
    run_init_counter zero_instance (List.replicate 32 0) (List.replicate 24 0) wrap_calls
  rw [stream_length_wrap_calls] at h2 h3
  have h2 : counter d.state = 0 := by rw [h2]; decide
  have h3 : d.pos = 1 := by rw [h3]; decide
  refine ⟨d, outs, h1, by rw [stream_length_wrap_calls]; decide, h2, h3, ?_, ?_⟩ <;>
    rw [h2, h3, stream_length_wrap_calls] <;> decide

/-- C8, witness of the amended claim: `init`, three bytes of `crypt` and
`discard(129)` leave the counter at 3 and the cursor at 4. -/
theorem counter_position_amended_witness :
    ∃ d outs, run (init zero_instance (List.replicate 32 0) (List.replicate 24 0))
        [Call.crypt [1, 2, 3], Call.discard 129] = some (d, outs)
      ∧ counter d.state = 3 ∧ d.pos = 4 := by
  obtain ⟨d, outs, h1, h2, h3⟩ :=
    counter_position_amended zero_instance (List.replicate 32 0) (List.replicate 24 0)
      [Call.crypt [1, 2, 3], Call.discard 129]
  have e : stream_length [Call.crypt [1, 2, 3], Call.discard 129] = 132 := by decide
  rw [e] at h2 h3
  have h4 := (h3 (by decide)).2
  have h2 : counter d.state = 3 := by rw [h2]; decide
  refine ⟨d, outs, h1, h2, ?_⟩
  rw [h2] at h4
  omega


/-- C11 (cursor range): every state reached from `init` by any sequence of
`crypt` and `discard` calls, of any lengths, has `0 < pos <= 64`: the calls
return and the cursor stays in the range; `init` establishes the range, and
`crypt` and `discard` each preserve it from any cipher state. -/
theorem cursor_range (s : xchacha20) (key nonce : List Nat) (calls : List Call) :
    (∃ d outs, run (init s key nonce) calls = some (d, outs) ∧ 0 < d.pos ∧ d.pos ≤ 64)
    ∧ (0 < (init s key nonce).pos ∧ (init s key nonce).pos ≤ 64)
    ∧ (∀ (c : xchacha20) (x : List Nat), 0 < c.pos → c.pos ≤ 64 →
        ∃ d out, crypt c x = some (d, out) ∧ 0 < d.pos ∧ d.pos ≤ 64)
    ∧ ∀ (c : xchacha20) (n : Nat), 0 < c.pos → c.pos ≤ 64 →
        0 < (discard c n).pos ∧ (discard c n).pos ≤ 64 := by
  refine ⟨?_, ⟨Nat.zero_lt_succ 63, Nat.le_refl 64⟩, fun c x h1 h2 => ?_,
    fun c n h1 h2 => discard_pos_range h1 h2 n⟩
  · obtain ⟨d, outs, h1, _, h3⟩ := run_init_counter s key nonce calls
    refine ⟨d, outs, h1, ?_⟩
    rw [h3]
    split <;> omega
  · exact ⟨_, _, crypt_eq_out h2 x, iterate_advance_pos_range h1 h2 x.length⟩

/-- C12 (frame of the working state): `crypt`, `discard`, `update` and
`increment_count` leave the state words 0-11 and 14-15 unchanged, for every
cipher state, input and length; for `crypt` this holds whenever the call returns,
which it does from every cursor `pos <= 64`. -/
theorem state_frame (c : xchacha20) (x : List Nat) (n : Nat) (s : Words) :
    (∀ d out, crypt c x = some (d, out) → frame c.state d.state)
    ∧ (c.pos ≤ 64 → ∃ d out, crypt c x = some (d, out) ∧ frame c.state d.state)
    ∧ frame c.state (discard c n).state
    ∧ frame c.state (update c).state
    ∧ frame s (increment_count s n) :=
  ⟨crypt_frame c x,
    fun hp => ⟨_, _, crypt_eq_out hp x, crypt_frame c x _ _ (crypt_eq_out hp x)⟩,
    discard_frame c n, update_frame c, increment_count_frame s n⟩

/-- C13 (`increment_count`): for every matrix and every increment `n`, the
new words 12 and 13 hold `(old_state[13] * 2^32 + old_state[12] + n) mod 2^64`,
low half in word 12 and high half in word 13: word 12 becomes
`(old_state[12] + n) mod 2^32`, its carry goes into word 13, the overflow past
`2^64` is dropped, and every other word is unchanged. -/
theorem increment_count_spec (state : Words) (n : Nat) :
    (increment_count state n).w13 * 2 ^ 32 + (increment_count state n).w12
        = (state.w13 * 2 ^ 32 + state.w12 + n) % 2 ^ 64
    ∧ (increment_count state n).w12 = (state.w12 + n) % 2 ^ 32
    ∧ (increment_count state n).w13 = (state.w13 + (state.w12 + n) / 2 ^ 32) % 2 ^ 32
    ∧ frame state (increment_count state n) := by
  refine ⟨?_, ?_, ?_, increment_count_frame state n⟩ <;>
    simp only [increment_count_eq] <;> omega

/-- C14 (`update`): for every cipher state `s`, `update` sets `keystream[i]`
to `(run_rounds(s.state)[i] + s.state[i]) mod 2^32` for every `i < 16`, with the
state before the call, increases the 64-bit counter by one modulo `2^64`, and
changes neither `pos` nor any other state word. -/
theorem update_spec (s : xchacha20) :
    (∀ i, i < 16 → ∃ r a, (run_rounds s.state).get i = some r ∧ s.state.get i = some a
        ∧ (update s).keystream.get i = some ((r + a) % 2 ^ 32))
    ∧ (update s).keystream.toList
        = List.zipWith (fun r a => (r + a) % 2 ^ 32) (run_rounds s.state).toList s.state.toList
    ∧ counter (update s).state = (counter s.state + 1) % 2 ^ 64
    ∧ (update s).pos = s.pos
    ∧ frame s.state (update s).state := by
  refine ⟨fun i hi => ?_, rfl, counter_increment_count s.state 1, rfl, update_frame s⟩
  interval_cases i <;> exact ⟨_, _, rfl, rfl, rfl⟩

/-- C15, as amended (`discard` without a block): for every `discard(N)` on a
state with `pos <= 64`, if the length left after the partial-block step is a
multiple of 64, then `pos = min(pos + N, 64)` on return and the keystream buffer
is kept: the cursor is exhausted, `pos = 64`, when the seek reaches the end of the
current block (`pos + N >= 64`), and it is `pos + N` otherwise. -/
theorem discard_exhausted_amended (c : xchacha20) (N : Nat) (hp : c.pos ≤ 64)
    (h : spec_discard_left c.pos N % 64 = 0) :
    (discard c N).pos = min (c.pos + N) 64
    ∧ (64 ≤ c.pos + N → (discard c N).pos = 64)
    ∧ (c.pos + N < 64 → (discard c N).pos = c.pos + N)
    ∧ (discard c N).keystream = c.keystream := by
  obtain ⟨h1, h2, _⟩ := discard_no_block hp N h
  exact ⟨h1, fun h3 => by rw [h1]; omega, fun h3 => by rw [h1]; omega, h2⟩

/-- C15, counterexample: after `init` and three bytes of `crypt` the cursor is
at 3; `discard(5)` consumes its five bytes in the partial-block step, so that
the length left is 0, a multiple of 64, and no block is generated; yet the
cursor is at 8 on return, not at 64. -/
theorem discard_exhausted_counterexample :
    ∃ c out, crypt (init zero_instance (List.replicate 32 0) (List.replicate 24 0)) [0, 0, 0]
        = some (c, out)
      ∧ c.pos = 3 ∧ c.pos ≤ 64 ∧ spec_discard_left c.pos 5 % 64 = 0
      ∧ (discard c 5).pos = 8 ∧ (discard c 5).pos ≠ 64 := by
  have hw := init_state_wf zero_instance (List.replicate 32 0) (List.replicate 24 0)
  have h3 : (advance^[3] (init zero_instance (List.replicate 32 0) (List.replicate 24 0))).pos
      = 3 := by
    rw [(iterate_advance_discard hw (Nat.le_refl 64) 3).2.1, (discard_counter_pos hw rfl 3).2]
    rfl
  have h8 := discard_within_pos
    (c := advance^[3] (init zero_instance (List.replicate 32 0) (List.replicate 24 0))) 5
    (by rw [h3]; decide)
  rw [h3] at h8
  refine ⟨_, _, crypt_eq_out (c := init zero_instance (List.replicate 32 0)
    (List.replicate 24 0)) (Nat.le_refl 64) [0, 0, 0], h3, ?_, ?_, h8, ?_⟩
  · show (advance^[3] _).pos ≤ 64
    rw [h3]; decide
  · show spec_discard_left (advance^[3] _).pos 5 % 64 = 0
    rw [h3]; decide
  · show (discard (advance^[3] _) 5).pos ≠ 64
    rw [h8]; decide

/-- C16 (keystream buffer coherence): in every state reached from `init` by any
sequence of `crypt` and `discard` calls, if `pos < 64` then
`keystream[i] = (run_rounds(S)[i] + S[i]) mod 2^32` for every `i < 16`, where `S`
is the state with its 64-bit counter replaced by `(counter - 1) mod 2^64`; the
sixteen words are given both as a list and word by word. -/
theorem keystream_coherent (s : xchacha20) (key nonce : List Nat) (calls : List Call) :
    ∃ d outs, run (init s key nonce) calls = some (d, outs)
      ∧ (d.pos < 64 →
          d.keystream.toList
            = List.zipWith (fun r a => (r + a) % 2 ^ 32)
                (run_rounds
                  (set_counter d.state ((counter d.state + 2 ^ 64 - 1) % 2 ^ 64))).toList
                (set_counter d.state ((counter d.state + 2 ^ 64 - 1) % 2 ^ 64)).toList
          ∧ ∀ i, i < 16 → ∃ r a,
              (run_rounds
                (set_counter d.state ((counter d.state + 2 ^ 64 - 1) % 2 ^ 64))).get i = some r
              ∧ (set_counter d.state ((counter d.state + 2 ^ 64 - 1) % 2 ^ 64)).get i = some a
              ∧ d.keystream.get i = some ((r + a) % 2 ^ 32)) := by
  have hw := init_state_wf s key nonce
  obtain ⟨d, outs, h1, h2⟩ := run_discard hw (Nat.le_refl 64) calls
  refine ⟨d, outs, h1, fun hlt => ?_⟩
  have hpos := (discard_counter_pos hw rfl (stream_length calls)).2
  rw [← h2.2.1] at hpos
  have hT : 64 < (init s key nonce).pos + stream_length calls := by
    rw [init_pos]
    split at hpos <;> omega
  have hr : ¬ ((init s key nonce).pos + stream_length calls - 64) % 64 = 0 := by
    rw [init_pos]
    split at hpos <;> omega
  rw [discard_beyond (Nat.le_refl 64) _ hT, if_neg hr] at h2
  rw [h2.1, h2.2.2 (by omega)]
  simp only
  rw [set_counter_pred (increment_count_lt _ _).1 (increment_count_lt _ _).2]
  refine ⟨rfl, fun i hi => ?_⟩
  interval_cases i <;> exact ⟨_, _, rfl, rfl, rfl⟩

/-- C17 (index safety of `crypt`): for every state with `pos <= 64` and every
input, `crypt` returns; the cursor `p` at each of its reads is below 64, the
word index `p / 4` below 16 and the shift `(p mod 4) * 8` below 32.  From any
state, `crypt` returns nothing exactly when one of its reads has a word index
of 16 or more. -/
theorem crypt_index_safe (c : xchacha20) (x : List Nat) (hp : c.pos ≤ 64) :
    (∃ d out, crypt c x = some (d, out) ∧ out.length = x.length)
    ∧ (crypt_reads c x).length = x.length
    ∧ (∀ p ∈ crypt_reads c x, p < 64 ∧ p / 4 < 16 ∧ p % 4 * 8 < 32)
    ∧ ∀ (e : xchacha20) (y : List Nat),
        crypt e y = none ↔ ∃ p ∈ crypt_reads e y, 16 ≤ p / 4 := by
  refine ⟨⟨_, _, crypt_eq_out hp x,
    zipWith_out_byte_length _ _ (keystream_bytes_length _ _)⟩, crypt_reads_length c x,
    fun p hmem => ?_, crypt_eq_none_iff⟩
  have := crypt_reads_lt hp x p hmem
  omega

/-- C18 (seeks compose): for every state with `pos <= 64` (its state words
being 32-bit words) and all lengths `a` and `b`, `discard(a)` followed by
`discard(b)` leaves the same state words and the same `pos` as `discard(a + b)`,
and every later `crypt` call, and every later sequence of calls, returns the
same output in both cases. -/
theorem discard_compose (c : xchacha20) (a b : Nat) (hw : c.state.wf) (hp : c.pos ≤ 64) :
    (discard (discard c a) b).state = (discard c (a + b)).state
    ∧ (discard (discard c a) b).pos = (discard c (a + b)).pos
    ∧ (∀ x : List Nat, ∃ d1 d2 out, crypt (discard (discard c a) b) x = some (d1, out)
        ∧ crypt (discard c (a + b)) x = some (d2, out))
    ∧ ∀ calls : List Call, ∃ d1 d2 outs,
        run (discard (discard c a) b) calls = some (d1, outs)
        ∧ run (discard c (a + b)) calls = some (d2, outs)
        ∧ d1.state = d2.state ∧ d1.pos = d2.pos := by
  have h := discard_discard hw hp a b
  have hw2 := discard_state_wf (discard_state_wf hw hp a) (discard_pos hw hp a) b
  have hp2 := discard_pos (discard_state_wf hw hp a) (discard_pos hw hp a) b
  refine ⟨h.1, h.2.1, fun x => ⟨_, advance^[x.length] (discard c (a + b)), _,
    crypt_eq_out hp2 x, ?_⟩, fun calls => ?_⟩
  · rw [crypt_eq_out (discard_pos hw hp (a + b)), keystream_bytes_congr h]
  · obtain ⟨d1, d2, outs, h1, h2, h3⟩ := run_congr hw2 hp2 h calls
    exact ⟨d1, d2, outs, h1, h2, h3.1, h3.2.1⟩

/-- C19 (`run_rounds` is a permutation): on the matrices of sixteen 32-bit
words `run_rounds` is injective, maps into them and onto them, with
`run_rounds_inv` as its inverse on both sides, because the quarter round has an
inverse: each of its steps, wrapping add, xor and rotation, is undone. -/
theorem run_rounds_bijective :
    (∀ m1 m2 : Words, m1.wf → m2.wf → run_rounds m1 = run_rounds m2 → m1 = m2)
    ∧ (∀ m : Words, m.wf → (run_rounds m).wf)
    ∧ (∀ m : Words, m.wf → ∃ k : Words, k.wf ∧ run_rounds k = m)
    ∧ (∀ m : Words, m.wf → run_rounds_inv (run_rounds m) = m)
    ∧ (∀ m : Words, m.wf → run_rounds (run_rounds_inv m) = m)
    ∧ (∀ a b c d : Nat, a < 2 ^ 32 → b < 2 ^ 32 → c < 2 ^ 32 → d < 2 ^ 32 →
        CHACHA20_QR_inv (CHACHA20_QR a b c d).1 (CHACHA20_QR a b c d).2.1
          (CHACHA20_QR a b c d).2.2.1 (CHACHA20_QR a b c d).2.2.2 = (a, b, c, d)) := by
  refine ⟨fun m1 m2 h1 h2 h => ?_, fun m h => run_rounds_wf h,
    fun m h => ⟨run_rounds_inv m, run_rounds_inv_wf h, run_rounds_run_rounds_inv h⟩,
    fun m h => run_rounds_inv_run_rounds h, fun m h => run_rounds_run_rounds_inv h,
    fun a b c d ha hb hc hd => CHACHA20_QR_inv_QR ha hb hc hd⟩
  rw [← run_rounds_inv_run_rounds h1, ← run_rounds_inv_run_rounds h2, h]

/-! ## Witnesses -/

/-- C1, witness: three bytes encrypted right after `init` with a zero key and
nonce. -/
theorem crypt_after_init_witness :
    bytes [1, 2, 3]
    ∧ ∃ d out, crypt (init zero_instance (List.replicate 32 0) (List.replicate 24 0)) [1, 2, 3]
          = some (d, out)
        ∧ out.length = [1, 2, 3].length
        ∧ ∀ i, i < [1, 2, 3].length → out.getD i 0
            = [1, 2, 3].getD i 0
              ^^^ spec_keystream (List.replicate 32 0) (List.replicate 24 0) i :=
  ⟨by decide,
    crypt_after_init zero_instance (List.replicate 32 0) (List.replicate 24 0) [1, 2, 3]
      (by decide)⟩

/-- C2, witness: a plaintext of three bytes, encrypted and decrypted with a
zero key and nonce. -/
theorem crypt_self_inverse_witness :
    bytes [7, 8, 255]
    ∧ ∃ c1 ct c2,
        crypt (init zero_instance (List.replicate 32 0) (List.replicate 24 0)) [7, 8, 255]
          = some (c1, ct)
        ∧ ct.length = [7, 8, 255].length
        ∧ crypt (init zero_instance (List.replicate 32 0) (List.replicate 24 0)) ct
          = some (c2, [7, 8, 255]) :=
  ⟨by decide,
    crypt_self_inverse zero_instance zero_instance (List.replicate 32 0) (List.replicate 24 0)
      [7, 8, 255] (by decide)⟩

/-- C3, witness: a seek of three bytes before two bytes of input. -/
theorem discard_equivalence_witness :
    zero_instance.state.wf ∧ zero_instance.pos ≤ 64
    ∧ (∃ c1 o1 c2 o2 c3 o3 c4,
        crypt (discard zero_instance [1, 2, 3].length) [4, 5] = some (c1, o1)
        ∧ crypt zero_instance ([1, 2, 3] ++ [4, 5]) = some (c2, o2)
        ∧ o1 = o2.drop [1, 2, 3].length ∧ o1.length = [4, 5].length
        ∧ crypt zero_instance [1, 2, 3] = some (c3, o3) ∧ crypt c3 [4, 5] = some (c4, o1)
        ∧ same_stream c1 c2)
    ∧ ∃ d outs c1 c2 o2, run zero_instance [Call.crypt [1], Call.discard 2] = some (d, outs)
        ∧ crypt zero_instance ([1, 2, 3] ++ [4, 5]) = some (c2, o2)
        ∧ crypt d [4, 5] = some (c1, o2.drop [1, 2, 3].length) :=
  ⟨by decide, by decide,
    (discard_equivalence zero_instance [1, 2, 3] [4, 5] (by decide) (by decide)).1,
    (discard_equivalence zero_instance [1, 2, 3] [4, 5] (by decide) (by decide)).2
      [Call.crypt [1], Call.discard 2] (by decide)⟩

/-- C4, witness: an input split after its second byte. -/
theorem crypt_chunking_witness :
    zero_instance.pos ≤ 64
    ∧ (∃ c1 oa c2 ob, crypt zero_instance [1, 2] = some (c1, oa)
        ∧ crypt c1 [3] = some (c2, ob)
        ∧ crypt zero_instance ([1, 2] ++ [3]) = some (c2, oa ++ ob))
    ∧ ∀ chunks : List (List Nat), ∃ d outs,
        run zero_instance (chunks.map Call.crypt) = some (d, outs)
        ∧ crypt zero_instance chunks.flatten = some (d, outs.flatten) :=
  ⟨by decide, crypt_chunking zero_instance [1, 2] [3] (by decide)⟩

/-- C9, witness: two inputs of two bytes. -/
theorem crypt_data_independent_witness :
    zero_instance.pos ≤ 64 ∧ [1, 2].length = [30, 40].length ∧ bytes [1, 2] ∧ bytes [30, 40]
    ∧ ∃ d ox oy oz, crypt zero_instance [1, 2] = some (d, ox)
        ∧ crypt zero_instance [30, 40] = some (d, oy)
        ∧ crypt zero_instance (List.replicate [1, 2].length 0) = some (d, oz)
        ∧ ox.length = [1, 2].length ∧ oy.length = [1, 2].length
        ∧ (∀ i, i < [1, 2].length →
            ox.getD i 0 ^^^ [1, 2].getD i 0 = oy.getD i 0 ^^^ [30, 40].getD i 0)
        ∧ ox = List.zipWith (fun b k => b ^^^ k) [1, 2] oz :=
  ⟨by decide, by decide, by decide, by decide,
    crypt_data_independent zero_instance [1, 2] [30, 40] (by decide) (by decide) (by decide)
      (by decide)⟩

/-- C11, witness: the range is preserved from a cursor in the middle of a
block. -/
theorem cursor_range_witness :
    (0 < midblock_instance.pos ∧ midblock_instance.pos ≤ 64)
    ∧ (∃ d out, crypt midblock_instance [1, 2] = some (d, out) ∧ 0 < d.pos ∧ d.pos ≤ 64)
    ∧ 0 < (discard midblock_instance 100).pos ∧ (discard midblock_instance 100).pos ≤ 64 :=
  ⟨⟨by decide, by decide⟩,
    (cursor_range zero_instance (List.replicate 32 0) (List.replicate 24 0) []).2.2.1
      midblock_instance [1, 2] (by decide) (by decide),
    (cursor_range zero_instance (List.replicate 32 0) (List.replicate 24 0) []).2.2.2
      midblock_instance 100 (by decide) (by decide)⟩

/-- C12, witness: seventy bytes of `crypt` from a cursor in the middle of a
block. -/
theorem state_frame_witness :
    midblock_instance.pos ≤ 64
    ∧ ∃ d out, crypt midblock_instance (List.replicate 70 0) = some (d, out)
        ∧ frame midblock_instance.state d.state :=
  ⟨by decide,
    (state_frame midblock_instance (List.replicate 70 0) 0 Words.zero).2.1 (by decide)⟩

/-- C14, witness: the word 12 of the block made by `update`. -/
theorem update_spec_witness :
    ∃ r a, (run_rounds midblock_instance.state).get 12 = some r
      ∧ midblock_instance.state.get 12 = some a
      ∧ (update midblock_instance).keystream.get 12 = some ((r + a) % 2 ^ 32) :=
  (update_spec midblock_instance).1 12 (by decide)

/-- C15, witness of the amended claim: a seek of 189 bytes from the cursor 3
stops at the end of a block. -/
theorem discard_exhausted_amended_witness :
    midblock_instance.pos ≤ 64 ∧ spec_discard_left midblock_instance.pos 189 % 64 = 0
    ∧ (discard midblock_instance 189).pos = min (midblock_instance.pos + 189) 64
    ∧ (64 ≤ midblock_instance.pos + 189 → (discard midblock_instance 189).pos = 64)
    ∧ (midblock_instance.pos + 189 < 64 →
        (discard midblock_instance 189).pos = midblock_instance.pos + 189)
    ∧ (discard midblock_instance 189).keystream = midblock_instance.keystream :=
  ⟨by decide, by decide, discard_exhausted_amended midblock_instance 189 (by decide) (by decide)⟩

/-- C17, witness: three bytes from an exhausted cursor. -/
theorem crypt_index_safe_witness :
    zero_instance.pos ≤ 64
    ∧ (∃ d out, crypt zero_instance [1, 2, 3] = some (d, out) ∧ out.length = [1, 2, 3].length)
    ∧ (crypt_reads zero_instance [1, 2, 3]).length = [1, 2, 3].length
    ∧ (∀ p ∈ crypt_reads zero_instance [1, 2, 3], p < 64 ∧ p / 4 < 16 ∧ p % 4 * 8 < 32)
    ∧ ∀ (e : xchacha20) (y : List Nat),
        crypt e y = none ↔ ∃ p ∈ crypt_reads e y, 16 ≤ p / 4 :=
  ⟨by decide, crypt_index_safe zero_instance [1, 2, 3] (by decide)⟩

/-- C18, witness: seeks of 70 and 130 bytes from a cursor in the middle of a
block. -/
theorem discard_compose_witness :
    midblock_instance.state.wf ∧ midblock_instance.pos ≤ 64
    ∧ (discard (discard midblock_instance 70) 130).state
        = (discard midblock_instance (70 + 130)).state
    ∧ (discard (discard midblock_instance 70) 130).pos
        = (discard midblock_instance (70 + 130)).pos :=
  ⟨by decide, by decide,
    (discard_compose midblock_instance 70 130 (by decide) (by decide)).1,
    (discard_compose midblock_instance 70 130 (by decide) (by decide)).2.1⟩

/-- C19, witness: the zero matrix and the state of an example. -/
theorem run_rounds_bijective_witness :
    Words.zero.wf ∧ midblock_instance.state.wf
    ∧ (run_rounds Words.zero = run_rounds midblock_instance.state →
        Words.zero = midblock_instance.state)
    ∧ (run_rounds Words.zero).wf
    ∧ run_rounds_inv (run_rounds Words.zero) = Words.zero :=
  ⟨by decide, by decide,
    run_rounds_bijective.1 Words.zero midblock_instance.state (by decide) (by decide),
    run_rounds_bijective.2.1 Words.zero (by decide),
    run_rounds_bijective.2.2.2.1 Words.zero (by decide)⟩

/-- C16, witness: after `init` with a key of 32 and a nonce of 24 zero bytes
and three bytes of `crypt`, the cursor is at 3 and the keystream buffer holds
the sums for the counter before its increment. -/
theorem keystream_coherent_witness :
    ∃ d outs,
      run (init zero_instance (List.replicate 32 0) (List.replicate 24 0)) [Call.crypt [1, 2, 3]]
        = some (d, outs)
      ∧ d.pos < 64
      ∧ d.keystream.toList
          = List.zipWith (fun r a => (r + a) % 2 ^ 32)
              (run_rounds
                (set_counter d.state ((counter d.state + 2 ^ 64 - 1) % 2 ^ 64))).toList
              (set_counter d.state ((counter d.state + 2 ^ 64 - 1) % 2 ^ 64)).toList
      ∧ ∃ r a,
          (run_rounds
            (set_counter d.state ((counter d.state + 2 ^ 64 - 1) % 2 ^ 64))).get 12 = some r
          ∧ (set_counter d.state ((counter d.state + 2 ^ 64 - 1) % 2 ^ 64)).get 12 = some a
          ∧ d.keystream.get 12 = some ((r + a) % 2 ^ 32) := by
  obtain ⟨d, outs, h1, h2⟩ :=
    keystream_coherent zero_instance (List.replicate 32 0) (List.replicate 24 0)
      [Call.crypt [1, 2, 3]]
  obtain ⟨e, outs1, h3, _, h4⟩ :=
    run_init_counter zero_instance (List.replicate 32 0) (List.replicate 24 0)
      [Call.crypt [1, 2, 3]]
  rw [h1, Option.some.injEq, Prod.mk.injEq] at h3
  have hp : d.pos < 64 := by
    rw [h3.1, h4]
    decide
  exact ⟨d, outs, h1, hp, (h2 hp).1, (h2 hp).2 12 (by decide)⟩

end crypto
